import Mathlib

/-!
Verification of the reconciliation engine of `gh-issue-sync`.

The Go sources are shallowly embedded: pure functions become Lean functions on
`List Char` / `String` / `List`-valued records, the filesystem and the remote
tracker become explicit state or oracles, and fallible code returns `Option` /
`Except`.  Definitions translated from files under `src/` carry a comment naming
the file; functions of this repository whose definition is not under `src/`
(only their tests or callers are) are modelled from the specification and say so
in their doc comment.
-/

set_option maxRecDepth 8000

namespace IssueSync

/-- Go `strings.TrimSpace` on the character list of a string. -/
def trimChars (cs : List Char) : List Char :=
  ((cs.dropWhile Char.isWhitespace).reverse.dropWhile Char.isWhitespace).reverse

/-- Go `strings.TrimSpace`. -/
def trimStr (s : String) : String := String.mk (trimChars s.toList)

/-- The trim-nonempty-dedup pass of `sortedStrings` / `sortedRefs`
(`src/internal/issue/issue.go`): each item is trimmed, empty items are dropped,
and later duplicates are dropped (first occurrence kept, tracked by `seen`). -/
def dedupKeep (seen : List String) : List String → List String
  | [] => []
  | x :: xs =>
    let t := trimStr x
    if t = "" ∨ t ∈ seen then dedupKeep seen xs
    else t :: dedupKeep (t :: seen) xs

/-- Lexicographic comparison of character lists: the order `sort.Strings`
uses (byte-wise UTF-8 order coincides with code-point order). -/
def charListLe : List Char → List Char → Bool
  | [], _ => true
  | _ :: _, [] => false
  | a :: as, b :: bs => if a < b then true else if b < a then false else charListLe as bs

/-- Go string comparison. -/
def strLe (a b : String) : Bool := charListLe a.toList b.toList

/-- `sortedStrings` / `sortedRefs` from `src/internal/issue/issue.go`: trim,
drop empties and duplicates, then sort ascending (Go `sort.Strings`). -/
def sortedStrings (items : List String) : List String :=
  List.insertionSort (fun a b : String => strLe a b = true) (dedupKeep [] items)

/-- `IssueNumber.IsLocal` / `IssueRef.IsLocal` from `src/internal/issue/issue.go`:
a provisional (local) identifier starts with the reserved character `T`
(Go `strings.HasPrefix(string(n), "T")`). -/
def isLocalId (s : String) : Bool :=
  match s.toList with
  | 'T' :: _ => true
  | _ => false

/-- One scan step of Go `strings.ReplaceAll(body, "\r\n", "\n")`:
left-to-right, non-overlapping replacement. -/
def replaceCRLF : List Char → List Char
  | [] => []
  | '\r' :: '\n' :: rest => '\n' :: replaceCRLF rest
  | c :: rest => c :: replaceCRLF rest

/-- `normalizeBody` from `src/internal/issue/issue.go` on character lists:
normalize CRLF line endings, strip leading newlines, and guarantee a single
trailing newline on nonempty bodies. -/
def normalizeBodyChars (cs : List Char) : List Char :=
  let ds := (replaceCRLF cs).dropWhile (fun c => c = '\n')
  if ds = [] then []
  else if ds.getLast? = some '\n' then ds
  else ds ++ ['\n']

/-- `normalizeBody` from `src/internal/issue/issue.go`. -/
def normalizeBody (s : String) : String := String.mk (normalizeBodyChars s.toList)

/-- The record model: `Issue` from `src/internal/issue/issue.go`.  Identifier
and reference fields are plain strings (`IssueNumber` / `IssueRef` are string
types in the source); `syncedAt` keeps only an abstract timestamp. -/
structure Issue where
  number : String := ""
  title : String := ""
  labels : List String := []
  assignees : List String := []
  milestone : String := ""
  state : String := ""
  stateReason : Option String := none
  parent : Option String := none
  blockedBy : List String := []
  blocks : List String := []
  syncedAt : Option Nat := none
  body : String := ""
deriving DecidableEq, Repr, Inhabited

/-- `Normalize` from `src/internal/issue/issue.go`. -/
def normalizeIssue (i : Issue) : Issue :=
  { i with
    labels := sortedStrings i.labels
    assignees := sortedStrings i.assignees
    blockedBy := sortedStrings i.blockedBy
    blocks := sortedStrings i.blocks
    body := normalizeBody i.body }

/-- `normalizeOptional` / `normalizeOptionalRef` from `src/internal/issue/issue.go`:
an absent optional string and the empty string compare equal. -/
def optStr : Option String → String
  | none => ""
  | some s => s

/-- The field comparison inside `EqualIgnoringSyncedAt`
(`src/internal/issue/issue.go`), after both sides are normalized;
`syncedAt` is not compared. -/
def eqCore (a b : Issue) : Bool :=
  decide (a.number = b.number) && decide (a.title = b.title) &&
  decide (a.labels = b.labels) && decide (a.assignees = b.assignees) &&
  decide (a.milestone = b.milestone) && decide (a.state = b.state) &&
  decide (optStr a.stateReason = optStr b.stateReason) &&
  decide (optStr a.parent = optStr b.parent) &&
  decide (a.blockedBy = b.blockedBy) && decide (a.blocks = b.blocks) &&
  decide (a.body = b.body)

/-- `EqualIgnoringSyncedAt` from `src/internal/issue/issue.go`. -/
def equalIgnoringSyncedAt (a b : Issue) : Bool :=
  eqCore (normalizeIssue a) (normalizeIssue b)

/-- Field comparison ignoring the relationship fields, see
`equalForConflictCheck` below. -/
def eqConflictCore (a b : Issue) : Bool :=
  decide (a.number = b.number) && decide (a.title = b.title) &&
  decide (a.labels = b.labels) && decide (a.assignees = b.assignees) &&
  decide (a.milestone = b.milestone) && decide (a.state = b.state) &&
  decide (optStr a.stateReason = optStr b.stateReason) &&
  decide (a.body = b.body)

/-- Modelled from the spec: `issue.EqualForConflictCheck` is called by `Push`
(src/unnamed/part_001) but its definition is not under src.  Per §4.1 of the
spec it compares records like `EqualIgnoringSyncedAt` while additionally
ignoring the fields the remote system does not authoritatively own (the
derived/informational relationship fields: parent, blocked-by, blocks). -/
def equalForConflictCheck (a b : Issue) : Bool :=
  eqConflictCore (normalizeIssue a) (normalizeIssue b)

/-! ### Process lock (the `lock` package, src/unnamed/part_003) -/

/-- `LockInfo` from the lock package (src/unnamed/part_003): the owner process
id and acquisition time persisted in the marker file `lock.json`. -/
structure LockInfo where
  pid : Nat
  createdAt : Nat
deriving DecidableEq, Repr

/-- State of the lock marker file: `none` — the file does not exist;
`some none` — the file exists but its contents do not parse as `LockInfo`;
`some (some info)` — a parseable marker. -/
abbrev Marker := Option (Option LockInfo)

/-- `tryAcquire` from src/unnamed/part_003 (lines 274-322) as a transition on
the marker state.  `alive` is the liveness probe (`isProcessAlive`: signal 0 to
the recorded pid).  A parseable marker recording a live process makes the
attempt fail with the marker untouched; a marker of a dead process, or an
unparseable marker, is removed, after which the `O_EXCL` exclusive create
succeeds (sequential semantics: no concurrent creator races the remove/create
pair within one attempt). -/
def tryAcquire (alive : Nat → Bool) (selfPid now : Nat) : Marker → Bool × Marker
  | some (some info) =>
    if alive info.pid then (false, some (some info))
    else (true, some (some ⟨selfPid, now⟩))
  | some none => (true, some (some ⟨selfPid, now⟩))
  | none => (true, some (some ⟨selfPid, now⟩))

/-- Result of the blocking `Acquire` call. -/
inductive AcquireResult
  | acquired (t : Nat) (m : Marker)
  | timedOut
deriving DecidableEq, Repr

/-- `Acquire` from src/unnamed/part_003 (lines 244-270), with time counted in
units of the fixed `PollInterval` and `deadline = start + timeout`.  `sched`
is the environment: between polls other processes may rewrite the marker
(e.g. release it); `sched t m` is the marker the attempt at tick `t` sees.
A failed attempt returns the timeout error once the deadline has strictly
passed (`time.Now().After(deadline)`), otherwise the loop sleeps one poll
interval and retries. -/
def acquireLoop (alive : Nat → Bool) (selfPid : Nat) (sched : Nat → Marker → Marker)
    (deadline : Nat) (t : Nat) (m : Marker) : AcquireResult :=
  match tryAcquire alive selfPid t (sched t m) with
  | (true, m2) => .acquired t m2
  | (false, m2) =>
    if deadline < t then .timedOut
    else acquireLoop alive selfPid sched deadline (t + 1) m2
termination_by deadline + 1 - t
decreasing_by omega

/-- Environment in which nobody touches the marker between polls. -/
def noEvents : Nat → Marker → Marker := fun _ m => m

/-- Environment in which the holder releases the lock (deletes the marker)
just before the poll at tick `r`, and nothing else happens. -/
def releaseAt (r : Nat) : Nat → Marker → Marker :=
  fun t m => if t = r then none else m

/-- `Lock.Release` from src/unnamed/part_003 (lines 325-351).  `hasLock = false`
models the nil receiver (or empty path).  The marker is re-read before
deleting: a missing marker makes release a no-op, an unparseable marker is
removed, a marker recording a different pid is left in place, and only a
marker recording the current process is deleted.  None of these branches
returns an error in the source (errors there arise only from environment
failures of read/remove, which are outside this model). -/
def releaseLock (selfPid : Nat) (hasLock : Bool) (m : Marker) : Marker :=
  if hasLock = false then m
  else
    match m with
    | none => none
    | some none => none
    | some (some info) => if info.pid = selfPid then none else some (some info)

/-! ### Provisional identifier generation (`src/internal/localid/localid.go`) -/

/-- Lower-case hex digit character for a value below 16 (`encoding/hex`). -/
def hexDigitChar (d : Nat) : Char :=
  if d < 10 then Char.ofNat (48 + d) else Char.ofNat (87 + d)

/-- Hex encoding of one byte (`encoding/hex`: high nibble then low nibble). -/
def byteHex (b : Nat) : List Char := [hexDigitChar (b / 16), hexDigitChar (b % 16)]

/-- A byte value drawn from `crypto/rand`. -/
def isByte (b : Nat) : Prop := b < 256

/-- `localid.Generate` from `src/internal/localid/localid.go`, as a function of
the 4 random bytes drawn from `crypto/rand`: the identifier is the hex encoding
of the entropy (8 characters).  No store state — in particular no sequence
counter — is consulted. -/
def localidGenerate (bytes : List Nat) : String :=
  String.mk (bytes.map byteHex).flatten

/-! ### Identifier remapping (§4.2; `applyMapping`) -/

/-- Characters that can make up an identifier token inside free text
(ids are `T` plus hex in practice; a token is a run of alphanumerics). -/
def isTokenChar (c : Char) : Bool := c.isAlphanum

/-- After the id has been matched behind the `#` marker, the match counts as a
whole token only when the text ends there or continues with a non-token
character. -/
def tokenEnd : List Char → Bool
  | [] => true
  | c :: _ => !isTokenChar c

/-- Modelled from the spec: the inline-reference rewriting step of
`applyMapping` (called by `Push`, src/unnamed/part_001 lines 377-401, and
pinned by `TestApplyMapping` / `TestApplyMappingHexIDs` in src/unnamed/part_002;
the definition itself is not under src).  Per §4.2 a reference token is the
identifier's exact string form preceded by the `#` marker, matched as a whole
token; partial/prefix matches must not be rewritten.  The scanner walks the
text once, left to right. -/
def rewriteRefs (a b : List Char) : List Char → List Char
  | [] => []
  | c :: rest =>
    if c = '#' ∧ a.isPrefixOf rest ∧ tokenEnd (rest.drop a.length) then
      '#' :: (b ++ rewriteRefs a b (rest.drop a.length))
    else
      c :: rewriteRefs a b rest
termination_by s => s.length
decreasing_by
  · simp only [List.length_drop, List.length_cons]
    omega
  · simp only [List.length_cons]
    omega

/-- Modelled from the spec: exact whole-field replacement of one identifier in
an identifier-valued field (§4.2: the record's own identifier, the parent
reference and blocked-by / blocks members are replaced only when equal to the
mapped identifier). -/
def mapId (a b s : String) : String := if s = a then b else s

/-- Modelled from the spec: `applyMapping` for one provisional-to-permanent
pair `(a, b)`.  Rewrites the record's own identifier, the parent reference and
the blocked-by / blocks members by exact match, and the inline `#`-marked
tokens of the title and the body. -/
def applyMapPair (a b : String) (i : Issue) : Issue :=
  { i with
    number := mapId a b i.number
    title := String.mk (rewriteRefs a.toList b.toList i.title.toList)
    body := String.mk (rewriteRefs a.toList b.toList i.body.toList)
    parent := i.parent.map (mapId a b)
    blockedBy := i.blockedBy.map (mapId a b)
    blocks := i.blocks.map (mapId a b) }

/-- Modelled from the spec: `applyMapping` applies every pair of the
provisional-to-permanent identifier table to one record and reports whether the
record changed. -/
def applyMapping (mapping : List (String × String)) (i : Issue) : Issue × Bool :=
  let j := mapping.foldl (fun acc p => applyMapPair p.1 p.2 acc) i
  (j, decide (j ≠ i))

/-- A lexical item of free text: an inline reference token (`#` marker
followed by a maximal nonempty run of token characters) or one plain
character. -/
inductive Lexeme
  | ref (id : List Char)
  | chr (c : Char)
deriving DecidableEq, Repr

/-- Decompose free text into reference tokens and plain characters; a
reference token is a maximal nonempty run of token characters behind a `#`
marker. -/
def lexText : List Char → List Lexeme
  | [] => []
  | c :: rest =>
    if c = '#' then
      match rest with
      | [] => [.chr '#']
      | d :: ds =>
        if isTokenChar d then
          .ref (d :: ds.takeWhile isTokenChar) :: lexText (ds.dropWhile isTokenChar)
        else .chr '#' :: lexText (d :: ds)
    else .chr c :: lexText rest
termination_by s => s.length
decreasing_by
  · simp only [List.length_cons]
    exact Nat.lt_of_le_of_lt (List.dropWhile_sublist _).length_le (by omega)
  · simp only [List.length_cons]
    omega
  · simp only [List.length_cons]
    omega

/-- The text a lexeme stands for. -/
def lexChars : Lexeme → List Char
  | .ref id => '#' :: id
  | .chr c => [c]

/-- The declarative reading of §4.2: remapping `a` to `b` rewrites exactly the
reference lexemes whose identifier equals `a` and touches nothing else. -/
def lexRemap (a b : List Char) : Lexeme → Lexeme
  | .ref id => .ref (if id = a then b else id)
  | .chr c => .chr c

/-- Whole-token remapping stated over the lexical decomposition. -/
def remapSpec (a b : List Char) (s : List Char) : List Char :=
  (((lexText s).map (lexRemap a b)).map lexChars).flatten

/-! ### Diff/merge engine (§4.3) and the push conflict decision -/

/-- Field-level change flags: the spec's Change-Set, restricted to the
independently merged scalar/set fields the claims are about. -/
structure ChangedFields where
  title : Bool := false
  body : Bool := false
  labels : Bool := false
  assignees : Bool := false
  milestone : Bool := false
  state : Bool := false
deriving DecidableEq, Repr

/-- The empty Change-Set. -/
def noFields : ChangedFields := {}

/-- Modelled from the spec: `computeChanges(base, candidate)` (§4.3; pinned by
`TestComputeChanges` in src/internal/issue/issue_test.go, the definition is
not under src): a field counts as changed iff its normalized value differs. -/
def computeChanges (base cand : Issue) : ChangedFields :=
  let b := normalizeIssue base
  let c := normalizeIssue cand
  { title := decide (b.title ≠ c.title)
    body := decide (b.body ≠ c.body)
    labels := decide (b.labels ≠ c.labels)
    assignees := decide (b.assignees ≠ c.assignees)
    milestone := decide (b.milestone ≠ c.milestone)
    state := decide (b.state ≠ c.state) }

/-- One field of the spec's three-way merge (§4.3, rules 2-6): only local
diverged → local wins; only remote diverged → remote wins; both to the same
value → that value; both to different values → conflict, keeping local as the
best-effort merged value; neither diverged → base. -/
def mergeField {α : Type} [DecidableEq α] (base l r : α) : α × Bool :=
  if l = base then (r, false)
  else if r = base then (l, false)
  else if l = r then (l, false)
  else (l, true)

/-- Result of the three-way merge. -/
structure MergeResult where
  ok : Bool
  merged : Issue
  conflicts : ChangedFields
  localChanges : ChangedFields
deriving DecidableEq, Repr

/-- Modelled from the spec: `threeWayMerge(base, local, remote)` (§4.3; pinned
by `TestThreeWayMerge_NoConflict` / `_Conflict` / `_NoLocalChanges` in
src/internal/issue/issue_test.go, the definition is not under src).  Each field
merges independently after normalization; the merge is OK iff the Conflict Set
is empty. -/
def threeWayMerge (base l r : Issue) : MergeResult :=
  let b := normalizeIssue base
  let lo := normalizeIssue l
  let re := normalizeIssue r
  let ti := mergeField b.title lo.title re.title
  let bo := mergeField b.body lo.body re.body
  let la := mergeField b.labels lo.labels re.labels
  let asg := mergeField b.assignees lo.assignees re.assignees
  let mi := mergeField b.milestone lo.milestone re.milestone
  let st := mergeField b.state lo.state re.state
  let conflicts : ChangedFields :=
    { title := ti.2, body := bo.2, labels := la.2
      assignees := asg.2, milestone := mi.2, state := st.2 }
  { ok := decide (conflicts = noFields)
    merged := { b with
      title := ti.1, body := bo.1, labels := la.1
      assignees := asg.1, milestone := mi.1, state := st.1 }
    conflicts := conflicts
    localChanges := computeChanges base l }

/-- Outcome of the conflict-detection step of `Push` for one pending record
(src/unnamed/part_001, lines 501-535). -/
inductive PushOutcome
  | notFound
  | conflict
  | alreadyApplied
  | proceed
deriving DecidableEq, Repr

/-- The per-record conflict decision of `Push` (src/unnamed/part_001, lines
501-535): with `force` off and an original snapshot present, a remote snapshot
that diverged from the original marks the record as a conflict — whatever the
fields involved — unless local already equals remote (in which case the
original is refreshed and nothing is pushed); otherwise the record proceeds to
diffing and the remote write. -/
def pushDecision (force hasOriginal : Bool) (original localRec : Issue)
    (remote : Option Issue) : PushOutcome :=
  match remote with
  | none => .notFound
  | some rem =>
    if !force && hasOriginal && !(equalForConflictCheck rem original) then
      if !(equalForConflictCheck rem localRec) then .conflict
      else .alreadyApplied
    else .proceed

/-- Modelled from the spec: the open/closed transition classification of
`diffIssue(baseline, local)` (§4.3): a `close`/`reopen` transition is recorded
exactly when the state field changed, and is kept apart from ordinary field
edits because the remote treats it as a separate, non-batchable call. -/
inductive StateTransition
  | closeIt
  | reopenIt
deriving DecidableEq, Repr

/-- Modelled from the spec: which transition `diffIssue` records for a changed
state field. -/
def stateTransitionOf (baseline localRec : Issue) : Option StateTransition :=
  if baseline.state = localRec.state then none
  else if localRec.state = "closed" then some .closeIt
  else some .reopenIt

/-! ### Creation and remapping phase of `Push` (src/unnamed/part_001, 342-401) -/

/-- State of the record set during/after the creation phase. -/
structure CreateOutcome where
  records : List Issue
  mapping : List (String × String)
  created : List String
deriving DecidableEq, Repr

/-- The creation loop of `Push` (src/unnamed/part_001, lines 342-375): records
still carrying a provisional identifier are created remotely one at a time, in
record order, consuming one oracle answer (`some n` = the remote assigned
permanent id `n`, `none` = the call failed) per attempt.  A failed creation
aborts the run at once; the error carries the record set as persisted at that
point.  Each success rewrites only the created record's own file (its number
and synced-at timestamp); no cross-record remapping happens inside the loop. -/
def createLoop (now : Nat) (oracle : List (Option String)) (done todo : List Issue)
    (mapping : List (String × String)) (created : List String) :
    Except CreateOutcome CreateOutcome :=
  match todo with
  | [] => .ok ⟨done, mapping, created⟩
  | i :: rest =>
    if isLocalId i.number then
      match oracle with
      | some newNum :: oracle' =>
        createLoop now oracle' (done ++ [{ i with number := newNum, syncedAt := some now }])
          rest (mapping ++ [(i.number, newNum)]) (created ++ [newNum])
      | _ => .error ⟨done ++ i :: rest, mapping, created⟩
    else
      createLoop now oracle (done ++ [i]) rest mapping created

/-- The cross-record remapping pass of `Push` (src/unnamed/part_001, lines
378-401): the combined mapping is applied to every record of the local set. -/
def remapAll (mapping : List (String × String)) (records : List Issue) : List Issue :=
  records.map (fun i => (applyMapping mapping i).1)

/-- The creation phase of `Push` (src/unnamed/part_001, lines 342-401): the
sequential creation loop, followed — only when every creation succeeded — by a
single cross-record remapping pass over the whole record set.  On a creation
failure the run aborts with the record set as already persisted: records
created before the failure keep their new identifiers, but no cross-record
remapping has been applied. -/
def createPhase (now : Nat) (oracle : List (Option String)) (records : List Issue) :
    Except CreateOutcome CreateOutcome :=
  match createLoop now oracle [] records [] [] with
  | .error st => .error st
  | .ok st =>
    if st.mapping = [] then .ok st
    else .ok { st with records := remapAll st.mapping st.records }

/-- Fold of the exact-match identifier replacement over a mapping table, the
way one identifier-valued field evolves under `applyMapping`. -/
def foldMapId (mapping : List (String × String)) (x : String) : String :=
  mapping.foldl (fun s p => mapId p.1 p.2 s) x

/-! ### Mutation phase of `Push` (src/unnamed/part_001, lines 536-705) -/

/-- Per-record remote-call outcomes for one push run (`true` = the call
succeeds). -/
structure MutOracle where
  closeOk : String → Bool
  reopenOk : String → Bool
  batchCallOk : Bool
  batchErrors : List (String × String)
  setTypeOk : String → Bool
  syncRelOk : String → Bool
  syncProjOk : String → Bool
  commentOk : String → Bool

/-- One record that passed conflict detection, with its computed change-set
summarised by what the mutation phase dispatches on. -/
structure MutWork where
  num : String
  transition : Option StateTransition
  hasEdits : Bool
  changeType : Bool
  changeProjects : Bool
deriving DecidableEq, Repr

/-- The state-transition calls of `Push` (src/unnamed/part_001, lines 537-554):
issued per record, immediately, and a failure of `CloseIssue` / `ReopenIssue`
returns the error — aborting the run with later records unprocessed. -/
def transitionCalls (o : MutOracle) : List MutWork → Except String Unit
  | [] => .ok ()
  | w :: rest =>
    match w.transition with
    | some .closeIt =>
      if o.closeOk w.num then transitionCalls o rest
      else .error ("close " ++ w.num)
    | some .reopenIt =>
      if o.reopenOk w.num then transitionCalls o rest
      else .error ("reopen " ++ w.num)
    | none => transitionCalls o rest

/-- The warnings the post-batch loop logs for one record (src/unnamed/part_001,
lines 605-643): failures of the issue-type, relationship and project sync
calls are logged with the record identifier and do not abort. -/
def perWorkWarnings (o : MutOracle) (w : MutWork) : List String :=
  (if w.changeType && !(o.setTypeOk w.num) then ["type " ++ w.num] else []) ++
  (if !(o.syncRelOk w.num) then ["rel " ++ w.num] else []) ++
  (if w.changeProjects && !(o.syncProjOk w.num) then ["proj " ++ w.num] else [])

/-- The mutation phase of `Push` (src/unnamed/part_001, lines 536-705): state
transitions first (fatal on failure), then the batched field edit (fatal if the
whole call fails, per-record errors logged as warnings), then the per-record
type/relationship/project syncs (warnings), then comment posting (warnings).
The result is the fatal error, or the list of collected warnings, each naming
the record. -/
def mutatePhase (o : MutOracle) (works : List MutWork) (comments : List String) :
    Except String (List String) :=
  match transitionCalls o works with
  | .error e => .error e
  | .ok _ =>
    let anyEdits := works.any (·.hasEdits)
    if anyEdits && !o.batchCallOk then .error "batch update failed"
    else
      let batchWarn :=
        if anyEdits then o.batchErrors.map (fun p => "update " ++ p.1 ++ ": " ++ p.2) else []
      let workWarn := (works.map (perWorkWarnings o)).flatten
      let commentWarn := (comments.filter (fun c => !(o.commentOk c))).map (fun c => "comment " ++ c)
      .ok (batchWarn ++ workWarn ++ commentWarn)

/-! ### Observable step trace of one `Push` run (src/unnamed/part_001) -/

/-- The observable steps of one `Push` run, classified for the dry-run frame
property: reads, user-facing reports, remote mutations, and local writes. -/
inductive Action
  | loadCaches
  | readLocalIssues
  | readOriginal (n : String)
  | readPendingComments
  | fetchIssuesBatch (ns : List String)
  | report (s : String)
  | createLabel (l : String)
  | createMilestone (m : String)
  | createIssue (n : String)
  | closeIssue (n : String)
  | reopenIssue (n : String)
  | batchEdit
  | setType (n : String)
  | syncRel (n : String)
  | syncProj (n : String)
  | postComment (n : String)
  | writeIssueFile (n : String)
  | writeOriginal (n : String)
  | writeCache
deriving DecidableEq, Repr

/-- Remote mutation operations (create label/milestone/issue, edit,
close/reopen, relationship and categorisation syncs, comments). -/
def isRemoteMutation : Action → Bool
  | .createLabel _ => true
  | .createMilestone _ => true
  | .createIssue _ => true
  | .closeIssue _ => true
  | .reopenIssue _ => true
  | .batchEdit => true
  | .setType _ => true
  | .syncRel _ => true
  | .syncProj _ => true
  | .postComment _ => true
  | _ => false

/-- Local writes: issue files, Original Snapshots and vocabulary caches. -/
def isLocalWrite : Action → Bool
  | .writeIssueFile _ => true
  | .writeOriginal _ => true
  | .writeCache => true
  | _ => false

/-- Read-side steps. -/
def isReadStep : Action → Bool
  | .loadCaches => true
  | .readLocalIssues => true
  | .readOriginal _ => true
  | .readPendingComments => true
  | .fetchIssuesBatch _ => true
  | _ => false

/-- The inputs of one `Push` run: the local record set, the Original
Snapshots, the pending comment files (by issue id), the remote issues, the
cached vocabularies, and the remote's id assignment for created records.
Remote call failures are modelled separately (`createPhase`, `mutatePhase`);
the trace follows the success path of each call, which the frame claims do
not depend on. -/
structure PushWorld where
  records : List Issue
  originals : List (String × Issue)
  pendingComments : List String
  remote : List (String × Issue)
  cachedLabels : List String
  cachedMilestones : List String
  assign : String → String

/-- Vocabulary entries referenced by the records but absent from the cache
(`Push` lines 185-212; the lower-casing and sorting details are elided — the
frame claims do not depend on them). -/
def missingOf (needed cached : List String) : List String :=
  needed.filter (fun l => !(cached.contains l))

/-- All labels referenced by the record set. -/
def neededLabelsOf (records : List Issue) : List String :=
  ((records.map (·.labels)).flatten).dedup

/-- All milestones referenced by the record set. -/
def neededMilestonesOf (records : List Issue) : List String :=
  ((records.map (·.milestone)).filter (fun m => m ≠ "")).dedup

/-- Local change detection against the Original Snapshot (`Push` lines
262-264 and 462-463): changed when no original exists or the record differs
from it ignoring the synced-at timestamp. -/
def localChangedIn (w : PushWorld) (i : Issue) : Bool :=
  match w.originals.lookup i.number with
  | none => true
  | some orig => !(equalIgnoringSyncedAt i orig)

/-- Whether the change-set against the baseline contains batchable field
edits (`hasEdits` over `diffIssue`; state transitions are kept separate). -/
def hasEditsB (base i : Issue) : Bool :=
  let c := computeChanges base i
  c.title || c.body || c.labels || c.assignees || c.milestone

/-- The baseline used for diffing one record (`Push` lines 530-534): the
Original Snapshot when present, else the remote snapshot. -/
def baselineOf (w : PushWorld) (i : Issue) (rem : Issue) : Issue :=
  match w.originals.lookup i.number with
  | some orig => orig
  | none => rem

/-- The actions of the first update loop for one record (`Push` lines
501-554): the conflict decision, the already-applied refresh writes, and the
immediate close/reopen transition calls. -/
def updateLoopActions (w : PushWorld) (i : Issue) : List Action :=
  match w.remote.lookup i.number with
  | none => []
  | some rem =>
    let hasOrig := (w.originals.lookup i.number).isSome
    let orig := baselineOf w i rem
    match pushDecision false hasOrig orig i (some rem) with
    | .conflict => []
    | .notFound => []
    | .alreadyApplied => [.writeOriginal i.number, .writeIssueFile i.number]
    | .proceed =>
      match stateTransitionOf orig i with
      | some .closeIt => [.closeIssue i.number]
      | some .reopenIt => [.reopenIssue i.number]
      | none => []

/-- Whether the record proceeds to the remote write (`Push` lines 501-535). -/
def proceedsIn (w : PushWorld) (i : Issue) : Bool :=
  match w.remote.lookup i.number with
  | none => false
  | some rem =>
    let hasOrig := (w.originals.lookup i.number).isSome
    pushDecision false hasOrig (baselineOf w i rem) i (some rem) = PushOutcome.proceed

/-- The post-batch actions for one proceeding record (`Push` lines 605-659):
relationship sync, then the local issue file and Original Snapshot writes
(the conditional issue-type and project syncs concern fields the embedded
record model does not carry and are elided). -/
def postBatchActions (i : Issue) : List Action :=
  [.syncRel i.number, .writeIssueFile i.number, .writeOriginal i.number]

/-- The step trace of one `Push` run (src/unnamed/part_001), after the lock is
held: cache loads, local loads, then either the dry-run report (lines 246-282,
returning before any mutation) or the mutating pipeline (label/milestone
creation, sequential issue creation, reference remapping, batched conflict
fetch, state transitions, batched edits, per-record syncs and writes, comment
posting). -/
def pushTrace (dryRun : Bool) (w : PushWorld) : List Action :=
  let missL := missingOf (neededLabelsOf w.records) w.cachedLabels
  let missM := missingOf (neededMilestonesOf w.records) w.cachedMilestones
  let newRecs := w.records.filter (fun i => isLocalId i.number)
  let oldRecs := w.records.filter (fun i => !(isLocalId i.number))
  let front := [Action.loadCaches, Action.readLocalIssues, Action.readPendingComments]
  if dryRun then
    front ++
    missL.map (fun l => Action.report ("Would create label " ++ l)) ++
    missM.map (fun m => Action.report ("Would create milestone " ++ m)) ++
    newRecs.map (fun i => Action.report ("Would create issue " ++ i.title)) ++
    (oldRecs.map (fun i =>
      Action.readOriginal i.number ::
      (if localChangedIn w i then [Action.report ("Would push issue #" ++ i.number)] else []))).flatten ++
    w.pendingComments.map (fun n => Action.report ("Would post comment to #" ++ n))
  else
    let mapping := newRecs.map (fun i => (i.number, w.assign i.number))
    let changed := oldRecs.filter (localChangedIn w)
    let ns := changed.map (·.number)
    front ++
    missL.map Action.createLabel ++
    missM.map Action.createMilestone ++
    (if missL = [] then [] else [Action.writeCache]) ++
    (if missM = [] then [] else [Action.writeCache]) ++
    (newRecs.map (fun i =>
      [Action.createIssue i.number, Action.writeIssueFile (w.assign i.number),
       Action.writeOriginal (w.assign i.number)])).flatten ++
    (if newRecs = [] then []
     else
       Action.readLocalIssues ::
       ((w.records.filter (fun i => (applyMapping mapping i).2)).map
         (fun i => Action.writeIssueFile i.number) ++
        newRecs.map (fun i => Action.syncRel (w.assign i.number)))) ++
    (oldRecs.map (fun i => [Action.readOriginal i.number])).flatten ++
    (if ns = [] then [] else [Action.fetchIssuesBatch ns]) ++
    (changed.map (updateLoopActions w)).flatten ++
    (if (changed.filter (proceedsIn w)).any
        (fun i => hasEditsB (baselineOf w i ((w.remote.lookup i.number).getD i)) i)
     then [Action.batchEdit] else []) ++
    ((changed.filter (proceedsIn w)).map postBatchActions).flatten ++
    w.pendingComments.map Action.postComment

/-! ### Serialization (src/internal/issue/issue.go, `Render` / `Parse`)

The structured-text form is modelled in three layers: decimal numerals
(`strconv.Atoi` and the scalar text of integers), a wire value type for the
yaml subset the `FrontMatter` struct uses, and a line-level text codec.  The
yaml library itself is third-party; its behaviour on this subset is modelled
directly (fields in struct order, `omitempty`, null/int/string/timestamp
scalars, block sequences), with strings always written double-quoted — the Go
encoder picks plain style when safe, which carries no information. -/

/-- Decimal digit character. -/
def digitChar (d : Nat) : Char := Char.ofNat (48 + d)

/-- Little-endian decimal digits of `n` (with fuel; `fuel ≥ n` suffices). -/
def natToRevDigits (fuel : Nat) (n : Nat) : List Nat :=
  match fuel, n with
  | 0, _ => []
  | _ + 1, 0 => []
  | f + 1, m => (m % 10) :: natToRevDigits f (m / 10)

/-- Decimal text of a natural number. -/
def natRender (n : Nat) : List Char :=
  if n = 0 then ['0'] else ((natToRevDigits n n).reverse).map digitChar

/-- Decimal text of an integer (Go never renders a `+`). -/
def intRender (i : Int) : List Char :=
  if i < 0 then '-' :: natRender i.natAbs else natRender i.natAbs

/-- Value of a decimal digit character. -/
def digitVal? (c : Char) : Option Nat :=
  if '0' ≤ c ∧ c ≤ '9' then some (c.toNat - 48) else none

/-- Left-to-right accumulation of decimal digits. -/
def natParseAux (acc : Nat) : List Char → Option Nat
  | [] => some acc
  | c :: rest =>
    match digitVal? c with
    | some d => natParseAux (acc * 10 + d) rest
    | none => none

/-- Parse a nonempty all-digit numeral. -/
def natParse : List Char → Option Nat
  | [] => none
  | c :: rest => natParseAux 0 (c :: rest)

/-- `strconv.Atoi` from the Go standard library as used by
`IssueNumber.MarshalYAML` / `IssueRef.MarshalYAML`: an optional sign followed
by one or more decimal digits (leading zeros accepted); the machine-int range
limit is elided — out-of-range numerals stay strings in Go and round-trip
either way. -/
def atoiChars : List Char → Option Int
  | '+' :: rest => (natParse rest).map (fun n => (n : Int))
  | '-' :: rest => (natParse rest).map (fun n => -(n : Int))
  | cs => (natParse cs).map (fun n => (n : Int))

/-- `strconv.Atoi` on strings. -/
def atoi? (s : String) : Option Int := atoiChars s.toList

/-- A yaml wire value of the subset the `FrontMatter` struct uses. -/
inductive YVal
  | ynull
  | yint (n : Int)
  | ystr (s : String)
  | ytime (t : Nat)
  | yseq (xs : List YVal)

/-- `IssueNumber.MarshalYAML` / `IssueRef.MarshalYAML` from
src/internal/issue/issue.go: the empty identifier marshals as null, a local
identifier as a string, a decimal identifier as the integer `Atoi` yields,
anything else as a string. -/
def marshalId (s : String) : YVal :=
  if s = "" then .ynull
  else if isLocalId s then .ystr s
  else
    match atoi? s with
    | some n => .yint n
    | none => .ystr s

/-- The string an identifier field receives from one decoded scalar
(`UnmarshalYAML` from src/internal/issue/issue.go keeps the scalar's text;
the yaml decoder zeroes the field on null before custom unmarshalling runs). -/
def unmarshalId : YVal → String
  | .ynull => ""
  | .yint n => String.mk (intRender n)
  | .ystr s => s
  | .ytime t => String.mk (natRender t)
  | .yseq _ => ""

/-- Decode a plain string field (null decodes to the zero value). -/
def decodeStr : YVal → String
  | .ystr s => s
  | _ => ""

/-- Decode an optional string field (`*string`): null keeps the nil pointer. -/
def decodeOptStr : YVal → Option String
  | .ynull => none
  | .ystr s => some s
  | _ => none

/-- Decode an optional identifier field (`*IssueRef`). -/
def decodeOptId : YVal → Option String
  | .ynull => none
  | v => some (unmarshalId v)

/-- Decode an optional timestamp field (`*time.Time`). -/
def decodeTime : YVal → Option Nat
  | .ytime t => some t
  | _ => none

/-- Decode a sequence of identifier references. -/
def decodeSeqIds : YVal → List String
  | .yseq xs => xs.map unmarshalId
  | _ => []

/-- Decode a sequence of plain strings. -/
def decodeSeqStrs : YVal → List String
  | .yseq xs => xs.map decodeStr
  | _ => []

/-- The entry list `yaml.Marshal` produces for the `FrontMatter` struct of
src/internal/issue/issue.go (built by `Render`, lines 151-164): fields in
declaration order; `number`, `title` and `state_reason` have no `omitempty`
and are always written; the set-valued fields are first canonicalised by
`sortedStrings` / `sortedRefs`. -/
def encodeFM (i : Issue) : List (String × YVal) :=
  [("number", marshalId i.number), ("title", .ystr i.title)] ++
  (if sortedStrings i.labels = [] then []
   else [("labels", .yseq ((sortedStrings i.labels).map .ystr))]) ++
  (if sortedStrings i.assignees = [] then []
   else [("assignees", .yseq ((sortedStrings i.assignees).map .ystr))]) ++
  (if i.milestone = "" then [] else [("milestone", .ystr i.milestone)]) ++
  (if i.state = "" then [] else [("state", .ystr i.state)]) ++
  [("state_reason", match i.stateReason with | none => .ynull | some s => .ystr s)] ++
  (match i.parent with | none => [] | some r => [("parent", marshalId r)]) ++
  (if sortedStrings i.blockedBy = [] then []
   else [("blocked_by", .yseq ((sortedStrings i.blockedBy).map marshalId))]) ++
  (if sortedStrings i.blocks = [] then []
   else [("blocks", .yseq ((sortedStrings i.blocks).map marshalId))]) ++
  (match i.syncedAt with | none => [] | some t => [("synced_at", .ytime t)])

/-- The decoded front matter (the `FrontMatter` struct with every field at
its zero value until an entry sets it). -/
structure FMWire where
  number : String := ""
  title : String := ""
  labels : List String := []
  assignees : List String := []
  milestone : String := ""
  state : String := ""
  stateReason : Option String := none
  parent : Option String := none
  blockedBy : List String := []
  blocks : List String := []
  syncedAt : Option Nat := none
deriving DecidableEq, Repr

/-- Apply one decoded entry to the front matter under construction. -/
def applyFMEntry (fm : FMWire) (e : String × YVal) : FMWire :=
  if e.1 = "number" then { fm with number := unmarshalId e.2 }
  else if e.1 = "title" then { fm with title := decodeStr e.2 }
  else if e.1 = "labels" then { fm with labels := decodeSeqStrs e.2 }
  else if e.1 = "assignees" then { fm with assignees := decodeSeqStrs e.2 }
  else if e.1 = "milestone" then { fm with milestone := decodeStr e.2 }
  else if e.1 = "state" then { fm with state := decodeStr e.2 }
  else if e.1 = "state_reason" then { fm with stateReason := decodeOptStr e.2 }
  else if e.1 = "parent" then { fm with parent := decodeOptId e.2 }
  else if e.1 = "blocked_by" then { fm with blockedBy := decodeSeqIds e.2 }
  else if e.1 = "blocks" then { fm with blocks := decodeSeqIds e.2 }
  else if e.1 = "synced_at" then { fm with syncedAt := decodeTime e.2 }
  else fm

/-- `yaml.Unmarshal` into the `FrontMatter` struct, over decoded entries. -/
def decodeFM (es : List (String × YVal)) : FMWire := es.foldl applyFMEntry {}

/-- Escape the characters the yaml double-quoted scalar style reserves: the
quote, the backslash, and the newline (written `\n`, as the yaml encoder does
for strings it cannot emit plain), so every string - multiline ones
included - has a single-line quoted form. -/
def quoteChars : List Char → List Char
  | [] => []
  | c :: rest =>
    if c = '\n' then '\\' :: 'n' :: quoteChars rest
    else if c = '"' ∨ c = '\\' then '\\' :: c :: quoteChars rest
    else c :: quoteChars rest

/-- Invert `quoteChars` up to the closing quote, which must end the text: an
escape pair yields the escaped character (`\n` the newline), and the closing
quote ends the scalar. -/
def unquoteChars : List Char → Option (List Char)
  | [] => none
  | c :: rest =>
    if c = '\\' then
      match rest with
      | [] => none
      | c2 :: rest2 =>
        (unquoteChars rest2).map (fun xs => (if c2 = 'n' then '\n' else c2) :: xs)
    else if c = '"' then
      match rest with
      | [] => some []
      | _ :: _ => none
    else (unquoteChars rest).map (fun xs => c :: xs)

/-- Scalar text of a wire value: `null`, decimal integers, double-quoted
strings with yaml escaping (so any string, including a multiline one, fits on
one line), and `@`-marked timestamps (standing in for the RFC3339 text, which
carries the same information). -/
def scalarChars : YVal → List Char
  | .ynull => ['n', 'u', 'l', 'l']
  | .yint n => intRender n
  | .ystr s => '"' :: (quoteChars s.toList ++ ['"'])
  | .ytime t => '@' :: natRender t
  | .yseq _ => []

/-- Parse one scalar text back into a wire value. -/
def parseScalarC (cs : List Char) : Option YVal :=
  if cs = ['n', 'u', 'l', 'l'] then some .ynull
  else
    match cs with
    | [] => none
    | c :: rest =>
      if c = '"' then (unquoteChars rest).map (fun xs => .ystr (String.mk xs))
      else if c = '@' then (natParse rest).map (fun n => .ytime n)
      else if c = '-' then (natParse rest).map (fun n => .yint (-(n : Int)))
      else (natParse (c :: rest)).map (fun n => .yint (n : Int))

/-- The line(s) one front-matter entry renders to: `key: scalar`, or a
`key:` header followed by `  - item` lines for sequences. -/
def renderEntryC (e : String × YVal) : List (List Char) :=
  match e.2 with
  | .yseq xs => (e.1.toList ++ [':']) :: xs.map (fun x => ' ' :: ' ' :: '-' :: ' ' :: scalarChars x)
  | v => [e.1.toList ++ ':' :: ' ' :: scalarChars v]

/-- The yaml payload lines of the whole front matter. -/
def fmLinesC (es : List (String × YVal)) : List (List Char) := (es.map renderEntryC).flatten

/-- Recognise a sequence item line. -/
def seqItemC (l : List Char) : Option (List Char) :=
  match l with
  | c1 :: c2 :: c3 :: c4 :: rest =>
    if c1 = ' ' ∧ c2 = ' ' ∧ c3 = '-' ∧ c4 = ' ' then some rest else none
  | _ => none

/-- Parse the payload lines back into entries; structural recursion on a fuel
bound (each entry consumes at least one line, so `fuel = ls.length`
suffices). -/
def parseEntriesF (fuel : Nat) (ls : List (List Char)) : Option (List (String × YVal)) :=
  match fuel, ls with
  | _, [] => some []
  | 0, _ :: _ => none
  | f + 1, l :: rest =>
    match l.dropWhile (fun c => c ≠ ':') with
    | ':' :: after =>
      match after with
      | [] =>
        let items := rest.takeWhile (fun l2 => (seqItemC l2).isSome)
        match items.mapM (fun l2 => (seqItemC l2).bind parseScalarC) with
        | none => none
        | some vs =>
          (parseEntriesF f (rest.dropWhile (fun l2 => (seqItemC l2).isSome))).map
            (fun es => (String.mk (l.takeWhile (fun c => c ≠ ':')), .yseq vs) :: es)
      | ' ' :: vchars =>
        match parseScalarC vchars with
        | none => none
        | some v =>
          (parseEntriesF f rest).map
            (fun es => (String.mk (l.takeWhile (fun c => c ≠ ':')), v) :: es)
      | _ => none
    | _ => none

/-- Parse the payload lines back into entries. -/
def parseEntriesC (ls : List (List Char)) : Option (List (String × YVal)) :=
  parseEntriesF ls.length ls

/-- Split a character stream into lines at `'\n'` (Go `bytes.Split`). -/
def splitNL : List Char → List (List Char)
  | [] => [[]]
  | c :: rest =>
    if c = '\n' then [] :: splitNL rest
    else
      match splitNL rest with
      | [] => [[c]]
      | l :: ls => (c :: l) :: ls

/-- Join lines with `'\n'` (Go `bytes.Join`). -/
def joinNL : List (List Char) → List Char
  | [] => []
  | [l] => l
  | l :: ls => l ++ '\n' :: joinNL ls

/-- Strip a leading byte-order mark (`splitFrontMatter`,
src/internal/issue/issue.go line 346). -/
def dropBOM (cs : List Char) : List Char :=
  match cs with
  | '﻿' :: rest => rest
  | _ => cs

/-- Find the closing front-matter delimiter: split the lines after the opening
delimiter at the first `---` line (`splitFrontMatter`, lines 352-359). -/
def findDelim : List (List Char) → Option (List (List Char) × List (List Char))
  | [] => none
  | l :: rest =>
    if l = ['-', '-', '-'] then some ([], rest)
    else (findDelim rest).map (fun p => (l :: p.1, p.2))

/-- `Render` from src/internal/issue/issue.go (lines 151-178): the opening
delimiter line, the yaml payload of the front matter (each line
newline-terminated), the closing delimiter, a blank separator line, and the
normalized body. -/
def renderText (i : Issue) : List Char :=
  ['-', '-', '-', '\n'] ++
  ((fmLinesC (encodeFM i)).map (fun l => l ++ ['\n'])).flatten ++
  ['-', '-', '-', '\n', '\n'] ++
  (normalizeBody i.body).toList

/-- `Parse` from src/internal/issue/issue.go (lines 125-149) together with
`splitFrontMatter` (lines 345-367): strip a BOM, require the opening
delimiter, split at the first closing delimiter line, decode the front
matter, re-join the remaining lines as the body, strip one leading newline,
and normalize the body. -/
def parseText (cs0 : List Char) : Option Issue :=
  let cs := dropBOM cs0
  if ['-', '-', '-', '\n'].isPrefixOf cs then
    (findDelim (splitNL cs).tail).bind (fun fa =>
      (parseEntriesC fa.1).map (fun es =>
        let fm := decodeFM es
        let bodyChars :=
          match joinNL fa.2 with
          | '\n' :: t => t
          | t => t
        { number := fm.number, title := fm.title, labels := fm.labels
          assignees := fm.assignees, milestone := fm.milestone, state := fm.state
          stateReason := fm.stateReason, parent := fm.parent
          blockedBy := fm.blockedBy, blocks := fm.blocks, syncedAt := fm.syncedAt
          body := normalizeBody (String.mk bodyChars) }))
  else none

/-- The §8 disjoint-edit scenario, base record: title `A`, labels `[bug]`. -/
def scenarioBase : Issue := { number := "7", title := "A", labels := ["bug"], state := "open" }

/-- The §8 disjoint-edit scenario, local record: only the title changed. -/
def scenarioLocal : Issue := { number := "7", title := "B", labels := ["bug"], state := "open" }

/-- The §8 disjoint-edit scenario, remote record: only the labels changed. -/
def scenarioRemote : Issue :=
  { number := "7", title := "A", labels := ["bug", "urgent"], state := "open" }

/-- Little-endian value of a decimal digit list (specification device for the
numeral codec). -/
def revDigitsVal : List Nat → Nat
  | [] => 0
  | d :: ds => d + 10 * revDigitsVal ds

/-- A scalar wire value: everything except a sequence (sequences render as a
header line plus item lines instead).  Strings carry no side condition - the
escaped double-quoted form is single-line for every string. -/
def scalarWF : YVal → Prop
  | .yseq _ => False
  | _ => True

/-- A front-matter entry the line codec round-trips: a nonempty key that does
not start with a blank and contains no colon or newline, and a scalar value
(or a sequence of scalars). -/
def entryWF (e : String × YVal) : Prop :=
  e.1.toList ≠ [] ∧ e.1.toList.head? ≠ some ' ' ∧
  (∀ c ∈ e.1.toList, c ≠ ':' ∧ c ≠ '\n') ∧
  (match e.2 with
   | .yseq xs => ∀ x ∈ xs, scalarWF x
   | v => scalarWF v)

/-- An identifier string whose yaml round trip is the identity: local
identifiers and non-numeric strings pass through as strings; a numeral must
be the canonical decimal rendering of its value (no leading zeros, no sign). -/
def canonicalId (s : String) : Bool :=
  if isLocalId s then true
  else
    match atoi? s with
    | some n => decide (String.mk (intRender n) = s)
    | none => true

/-- String free of newline characters. -/
def noNL (s : String) : Bool := decide (('\n' : Char) ∉ s.toList)

/-- The render-safety condition of the amended round-trip claim: identifier
fields survive the yaml numeral canonicalisation (they are already in
canonical form), and the body is a fixed point of the (non-idempotent) body
normalisation after one pass. -/
def renderSafe (i : Issue) : Bool :=
  canonicalId i.number &&
  canonicalId (optStr i.parent) &&
  (sortedStrings i.blockedBy).all canonicalId &&
  (sortedStrings i.blocks).all canonicalId &&
  decide (normalizeBody (normalizeBody i.body) = normalizeBody i.body)

/-- A one-record world in which the record's title changed locally: the real
push run must fetch the remote snapshot for conflict detection, a read-side
step the dry run skips. -/
def dryRunWorld : PushWorld :=
  { records := [{ number := "7", title := "t", state := "open" }]
    originals := [("7", { number := "7", title := "told", state := "open" })]
    pendingComments := []
    remote := [("7", { number := "7", title := "told", state := "open" })]
    cachedLabels := []
    cachedMilestones := []
    assign := fun _ => "0" }

/-! ## Theorems -/

/-! ### Lock lemmas -/

/-- An attempt against a live holder fails and leaves the marker untouched. -/
theorem tryAcquire_busy (alive : Nat → Bool) (p2 t : Nat) (info : LockInfo)
    (h : alive info.pid = true) :
    tryAcquire alive p2 t (some (some info)) = (false, some (some info)) := by
  simp [tryAcquire, h]

/-- While the holder stays alive and nobody releases, every poll fails and the
loop returns the timeout error. -/
theorem acquireLoop_busy_timedOut (alive : Nat → Bool) (p2 : Nat) (info : LockInfo)
    (h : alive info.pid = true) (dl : Nat) :
    ∀ t, acquireLoop alive p2 noEvents dl t (some (some info)) = AcquireResult.timedOut := by
  have main : ∀ fuel t, dl + 1 - t ≤ fuel →
      acquireLoop alive p2 noEvents dl t (some (some info)) = AcquireResult.timedOut := by
    intro fuel
    induction fuel with
    | zero =>
      intro t ht
      have hd : dl < t := by omega
      rw [acquireLoop]
      simp [noEvents, tryAcquire_busy alive p2 t info h, hd]
    | succ n ih =>
      intro t ht
      by_cases hd : dl < t
      · rw [acquireLoop]
        simp [noEvents, tryAcquire_busy alive p2 t info h, hd]
      · rw [acquireLoop]
        simp [noEvents, tryAcquire_busy alive p2 t info h, hd]
        exact ih (t + 1) (by omega)
  intro t
  exact main (dl + 1 - t) t le_rfl

/-- If the holder releases the marker at tick `r ≤ deadline`, the waiting loop
acquires exactly at tick `r` and owns the marker afterwards. -/
theorem acquireLoop_release_acquired (alive : Nat → Bool) (p2 : Nat) (info : LockInfo)
    (h : alive info.pid = true) (dl r : Nat) (hr : r ≤ dl) :
    ∀ t, t ≤ r → acquireLoop alive p2 (releaseAt r) dl t (some (some info)) =
      AcquireResult.acquired r (some (some ⟨p2, r⟩)) := by
  have main : ∀ fuel t, t ≤ r → r - t ≤ fuel →
      acquireLoop alive p2 (releaseAt r) dl t (some (some info)) =
        AcquireResult.acquired r (some (some ⟨p2, r⟩)) := by
    intro fuel
    induction fuel with
    | zero =>
      intro t htr hf
      have : t = r := by omega
      subst this
      rw [acquireLoop]
      simp [releaseAt, tryAcquire]
    | succ n ih =>
      intro t htr hf
      by_cases hte : t = r
      · subst hte
        rw [acquireLoop]
        simp [releaseAt, tryAcquire]
      · have hnd : ¬ dl < t := by omega
        rw [acquireLoop]
        have hne : releaseAt r t (some (some info)) = some (some info) := by
          simp [releaseAt, hte]
        rw [hne]
        simp [tryAcquire_busy alive p2 t info h, hnd]
        exact ih (t + 1) (by omega) (by omega)
  intro t htr
  exact main (r - t) t htr le_rfl

/-- C1: Mutual exclusion of reconciliation runs.  While a process `p1` holds
the lock of a directory and is still alive, an acquisition attempt by `p2`
fails and leaves the marker untouched; the polling acquire call either returns
the timeout error once the caller-supplied deadline elapses with the lock
never released, or — if the holder releases at tick `r` within the deadline —
succeeds exactly at tick `r`, only after the release. -/
theorem claim_C1_lock_mutual_exclusion (alive : Nat → Bool) (p1 p2 c t dl r : Nat)
    (halive : alive p1 = true) (hr : r ≤ dl) :
    tryAcquire alive p2 t (some (some ⟨p1, c⟩)) = (false, some (some ⟨p1, c⟩)) ∧
    acquireLoop alive p2 noEvents dl 0 (some (some ⟨p1, c⟩)) = AcquireResult.timedOut ∧
    acquireLoop alive p2 (releaseAt r) dl 0 (some (some ⟨p1, c⟩)) =
      AcquireResult.acquired r (some (some ⟨p2, r⟩)) :=
  ⟨tryAcquire_busy alive p2 t ⟨p1, c⟩ halive,
   acquireLoop_busy_timedOut alive p2 ⟨p1, c⟩ halive dl 0,
   acquireLoop_release_acquired alive p2 ⟨p1, c⟩ halive dl r hr 0 (Nat.zero_le r)⟩

/-- Witness for C1 at concrete inputs: process 1 alive and holding, process 2
polling with deadline 5; with no release the call times out, with a release at
tick 3 it acquires at tick 3. -/
theorem claim_C1_witness :
    tryAcquire (fun p => decide (p = 1)) 2 7 (some (some ⟨1, 0⟩)) =
      (false, some (some ⟨1, 0⟩)) ∧
    acquireLoop (fun p => decide (p = 1)) 2 noEvents 5 0 (some (some ⟨1, 0⟩)) =
      AcquireResult.timedOut ∧
    acquireLoop (fun p => decide (p = 1)) 2 (releaseAt 3) 5 0 (some (some ⟨1, 0⟩)) =
      AcquireResult.acquired 3 (some (some ⟨2, 3⟩)) :=
  claim_C1_lock_mutual_exclusion (fun p => decide (p = 1)) 1 2 0 7 5 3 (by decide) (by decide)

/-- C6: Stale-lock recovery.  An acquisition attempt that finds a marker whose
recorded process is no longer alive deletes the stale marker and succeeds with
its own marker in place; an unparseable marker is likewise removed; in both
cases the blocking acquire succeeds at once instead of timing out. -/
theorem claim_C6_stale_lock_recovery (alive : Nat → Bool) (p t dl : Nat) (info : LockInfo)
    (hdead : alive info.pid = false) :
    tryAcquire alive p t (some (some info)) = (true, some (some ⟨p, t⟩)) ∧
    tryAcquire alive p t (some none) = (true, some (some ⟨p, t⟩)) ∧
    acquireLoop alive p noEvents dl 0 (some (some info)) =
      AcquireResult.acquired 0 (some (some ⟨p, 0⟩)) ∧
    acquireLoop alive p noEvents dl 0 (some none) =
      AcquireResult.acquired 0 (some (some ⟨p, 0⟩)) := by
  refine ⟨by simp [tryAcquire, hdead], by simp [tryAcquire], ?_, ?_⟩
  · rw [acquireLoop]
    simp [noEvents, tryAcquire, hdead]
  · rw [acquireLoop]
    simp [noEvents, tryAcquire]

/-- Witness for C6 at concrete inputs: a marker left by dead pid 999999999
(the test's value) and an unparseable marker are both recovered. -/
theorem claim_C6_witness :
    tryAcquire (fun _ => false) 7 4 (some (some ⟨999999999, 0⟩)) =
      (true, some (some ⟨7, 4⟩)) ∧
    tryAcquire (fun _ => false) 7 4 (some none) = (true, some (some ⟨7, 4⟩)) ∧
    acquireLoop (fun _ => false) 7 noEvents 150 0 (some (some ⟨999999999, 0⟩)) =
      AcquireResult.acquired 0 (some (some ⟨7, 0⟩)) ∧
    acquireLoop (fun _ => false) 7 noEvents 150 0 (some none) =
      AcquireResult.acquired 0 (some (some ⟨7, 0⟩)) :=
  claim_C6_stale_lock_recovery (fun _ => false) 7 4 150 ⟨999999999, 0⟩ (by decide)

/-- C8: Release safety and idempotence.  Release re-reads the marker and, if
it now records a different pid, leaves it in place and reports no error;
release on a nil lock or on an already-released lock (marker absent) is a
no-op; only a marker recording the current process is deleted. -/
theorem claim_C8_release_safety (selfPid c : Nat) (m : Marker) (info : LockInfo)
    (hother : info.pid ≠ selfPid) :
    releaseLock selfPid true (some (some info)) = some (some info) ∧
    releaseLock selfPid false m = m ∧
    releaseLock selfPid true none = none ∧
    releaseLock selfPid true (some (some ⟨selfPid, c⟩)) = none := by
  refine ⟨?_, by simp [releaseLock], by simp [releaseLock], by simp [releaseLock]⟩
  simp [releaseLock, hother]

/-- Witness for C8 at concrete inputs: pid 5 releasing against a marker owned
by pid 9 leaves it; nil and already-released cases are no-ops; its own marker
is deleted. -/
theorem claim_C8_witness :
    releaseLock 5 true (some (some ⟨9, 3⟩)) = some (some ⟨9, 3⟩) ∧
    releaseLock 5 false (some (some ⟨9, 3⟩)) = some (some ⟨9, 3⟩) ∧
    releaseLock 5 true none = none ∧
    releaseLock 5 true (some (some ⟨5, 3⟩)) = none :=
  claim_C8_release_safety 5 3 (some (some ⟨9, 3⟩)) ⟨9, 3⟩ (by decide)

/-! ### Identifier generation lemmas -/

/-- Hex digit characters are distinct below 16. -/
theorem hexDigitChar_inj_fin : ∀ a b : Fin 16, hexDigitChar a = hexDigitChar b → a = b := by
  decide

/-- Hex encoding of one byte is injective. -/
theorem byteHex_inj (b1 b2 : Nat) (h1 : b1 < 256) (h2 : b2 < 256)
    (h : byteHex b1 = byteHex b2) : b1 = b2 := by
  simp only [byteHex, List.cons.injEq, and_true] at h
  obtain ⟨hh, hl⟩ := h
  have hd : b1 / 16 = b2 / 16 := by
    have := hexDigitChar_inj_fin ⟨b1 / 16, by omega⟩ ⟨b2 / 16, by omega⟩ hh
    simpa using this
  have hm : b1 % 16 = b2 % 16 := by
    have := hexDigitChar_inj_fin ⟨b1 % 16, by omega⟩ ⟨b2 % 16, by omega⟩ hl
    simpa using this
  omega

/-- Concatenated two-character hex blocks decode uniquely. -/
theorem flatten_byteHex_inj : ∀ l1 l2 : List Nat,
    (∀ b ∈ l1, b < 256) → (∀ b ∈ l2, b < 256) →
    (l1.map byteHex).flatten = (l2.map byteHex).flatten → l1 = l2 := by
  intro l1
  induction l1 with
  | nil =>
    intro l2 _ _ h
    cases l2 with
    | nil => rfl
    | cons y ys => simp [byteHex] at h
  | cons x xs ih =>
    intro l2 h1 h2 h
    cases l2 with
    | nil => simp [byteHex] at h
    | cons y ys =>
      simp only [List.map_cons, List.flatten_cons, byteHex, List.cons_append,
        List.nil_append, List.cons.injEq] at h
      obtain ⟨hh, hl, hrest⟩ := h
      have hx : x = y := by
        apply byteHex_inj x y (h1 x (by simp)) (h2 y (by simp))
        simp [byteHex, hh, hl]
      have hxs : xs = ys := by
        apply ih ys (fun b hb => h1 b (by simp [hb])) (fun b hb => h2 b (by simp [hb]))
        simpa [byteHex] using hrest
      rw [hx, hxs]

/-- The generated identifier determines the entropy bytes. -/
theorem localidGenerate_inj (d1 d2 : List Nat)
    (h1 : ∀ b ∈ d1, b < 256) (h2 : ∀ b ∈ d2, b < 256)
    (h : localidGenerate d1 = localidGenerate d2) : d1 = d2 := by
  apply flatten_byteHex_inj d1 d2 h1 h2
  simpa [localidGenerate] using congrArg String.toList h

/-- Concatenated hex blocks have twice the length of the byte list. -/
theorem flatten_byteHex_length : ∀ d : List Nat, ((d.map byteHex).flatten).length = 2 * d.length := by
  intro d
  induction d with
  | nil => rfl
  | cons x xs ih =>
    simp only [List.map_cons, List.flatten_cons, List.length_append, ih, byteHex,
      List.length_cons, List.length_nil, List.length_cons]
    omega

/-- An identifier is twice as long as its entropy. -/
theorem localidGenerate_length (d : List Nat) : (localidGenerate d).length = 2 * d.length :=
  flatten_byteHex_length d

/-- C9 (amended): generating identifiers is injective in the entropy — any
sequence of pairwise-distinct 4-byte draws from `crypto/rand` yields
pairwise-distinct identifiers (zero collisions), each 8 hex characters long;
no sequence counter enters the computation (the generator is a pure function
of the random bytes alone).  Collisions can only come from the entropy itself
repeating. -/
theorem claim_C9_localid_uniqueness (draws : List (List Nat))
    (hbytes : ∀ d ∈ draws, ∀ b ∈ d, b < 256)
    (hnodup : draws.Nodup) :
    (draws.map localidGenerate).Nodup ∧
    ∀ d ∈ draws, d.length = 4 → (localidGenerate d).length = 8 := by
  constructor
  · refine hnodup.map_on ?_
    intro x hx y hy hxy
    exact localidGenerate_inj x y (hbytes x hx) (hbytes y hy) hxy
  · intro d _ hd4
    rw [localidGenerate_length, hd4]

/-- Witness for C9 at concrete inputs: three distinct byte draws give three
distinct 8-character identifiers. -/
theorem claim_C9_witness :
    ([[0, 0, 0, 0], [0, 0, 0, 1], [255, 255, 255, 255]].map localidGenerate).Nodup ∧
    ∀ d ∈ [[(0 : Nat), 0, 0, 0], [0, 0, 0, 1], [255, 255, 255, 255]],
      d.length = 4 → (localidGenerate d).length = 8 :=
  claim_C9_localid_uniqueness [[0, 0, 0, 0], [0, 0, 0, 1], [255, 255, 255, 255]]
    (by decide) (by decide)

/-- C9 counterexample: the claim that generating N ≥ 1000 identifiers *never*
repeats fails — `crypto/rand` can legitimately return the same 4 bytes twice,
and a run of 1000 draws in which the entropy repeats yields repeated
identifiers.  (With more than 2^32 draws a repeat is even forced.) -/
theorem claim_C9_counterexample :
    (List.replicate 1000 [(0 : Nat), 0, 0, 0]).length = 1000 ∧
    ((List.replicate 1000 [(0 : Nat), 0, 0, 0]).all
      (fun d => decide (d.length = 4) && d.all (fun b => decide (b < 256)))) = true ∧
    ¬ ((List.replicate 1000 [(0 : Nat), 0, 0, 0]).map localidGenerate).Nodup := by
  refine ⟨by simp, ?_, ?_⟩
  · rw [List.all_eq_true]
    intro d hd
    rw [List.mem_replicate] at hd
    rw [hd.2]
    decide
  · rw [List.map_replicate]
    rw [List.nodup_replicate]
    omega

/-! ### Remapping lemmas -/

/-- The reference marker is not a token character. -/
theorem isTokenChar_hash : isTokenChar '#' = false := by decide

/-- The scanner copies a marker-free chunk verbatim. -/
theorem rewriteRefs_skip (a b : List Char) : ∀ u v, (∀ c ∈ u, c ≠ '#') →
    rewriteRefs a b (u ++ v) = u ++ rewriteRefs a b v := by
  intro u
  induction u with
  | nil => simp
  | cons c u' ih =>
    intro v hu
    have hc : c ≠ '#' := hu c (by simp)
    rw [List.cons_append, rewriteRefs, if_neg (fun h => hc h.1)]
    rw [ih v (fun x hx => hu x (by simp [hx]))]
    simp

/-- `takeWhile` passes an all-satisfying chunk. -/
theorem takeWhile_app_all (p : Char → Bool) : ∀ (u v : List Char), (∀ c ∈ u, p c = true) →
    (u ++ v).takeWhile p = u ++ v.takeWhile p := by
  intro u
  induction u with
  | nil => simp
  | cons c u' ih =>
    intro v hu
    rw [List.cons_append, List.takeWhile_cons, if_pos (hu c (by simp))]
    rw [ih v (fun x hx => hu x (by simp [hx]))]
    simp

/-- `dropWhile` drops an all-satisfying chunk. -/
theorem dropWhile_app_all (p : Char → Bool) : ∀ (u v : List Char), (∀ c ∈ u, p c = true) →
    (u ++ v).dropWhile p = v.dropWhile p := by
  intro u
  induction u with
  | nil => simp
  | cons c u' ih =>
    intro v hu
    rw [List.cons_append, List.dropWhile_cons, if_pos (hu c (by simp))]
    exact ih v (fun x hx => hu x (by simp [hx]))

/-- A token boundary stops `takeWhile` at once. -/
theorem takeWhile_eq_nil_of_tokenEnd (t : List Char) (h : tokenEnd t = true) :
    t.takeWhile isTokenChar = [] := by
  cases t with
  | nil => rfl
  | cons c cs =>
    simp only [tokenEnd, Bool.not_eq_true'] at h
    rw [List.takeWhile_cons, if_neg (by simp [h])]

/-- A token boundary makes `dropWhile` keep everything. -/
theorem dropWhile_eq_self_of_tokenEnd (t : List Char) (h : tokenEnd t = true) :
    t.dropWhile isTokenChar = t := by
  cases t with
  | nil => rfl
  | cons c cs =>
    simp only [tokenEnd, Bool.not_eq_true'] at h
    rw [List.dropWhile_cons, if_neg (by simp [h])]

/-- After dropping a token run, the text sits at a token boundary. -/
theorem tokenEnd_dropWhile : ∀ t : List Char, tokenEnd (t.dropWhile isTokenChar) = true := by
  intro t
  induction t with
  | nil => rfl
  | cons c cs ih =>
    rw [List.dropWhile_cons]
    by_cases hc : isTokenChar c = true
    · rw [if_pos hc]; exact ih
    · rw [if_neg hc]
      simp only [tokenEnd, Bool.not_eq_true]
      simpa using hc

/-- Unfolding: the empty text has no lexemes. -/
theorem lexText_nil : lexText [] = [] := by
  rw [lexText.eq_def]

/-- Unfolding: a plain character is one lexeme. -/
theorem lexText_cons_ne (c : Char) (rest : List Char) (hc : c ≠ '#') :
    lexText (c :: rest) = .chr c :: lexText rest := by
  rw [lexText.eq_def]
  simp [hc]

/-- Unfolding: a trailing marker is a plain character. -/
theorem lexText_hash_nil : lexText ['#'] = [.chr '#'] := by
  rw [lexText.eq_def]
  simp

/-- Unfolding: a marker followed by a token run opens a reference lexeme. -/
theorem lexText_hash_tok (d : Char) (ds : List Char) (hd : isTokenChar d = true) :
    lexText ('#' :: d :: ds) =
      .ref (d :: ds.takeWhile isTokenChar) :: lexText (ds.dropWhile isTokenChar) := by
  rw [lexText.eq_def]
  simp [hd]

/-- Unfolding: a marker followed by a non-token character stays plain. -/
theorem lexText_hash_notok (d : Char) (ds : List Char) (hd : isTokenChar d = false) :
    lexText ('#' :: d :: ds) = .chr '#' :: lexText (d :: ds) := by
  rw [lexText.eq_def]
  simp [hd]

/-- Rendering the lexical decomposition reproduces the text. -/
theorem lexChars_flatten : ∀ s : List Char, ((lexText s).map lexChars).flatten = s := by
  have main : ∀ n, ∀ s : List Char, s.length ≤ n →
      ((lexText s).map lexChars).flatten = s := by
    intro n
    induction n with
    | zero =>
      intro s hs
      have : s = [] := by
        cases s with
        | nil => rfl
        | cons c cs => simp at hs
      subst this
      rw [lexText_nil]
      rfl
    | succ n ih =>
      intro s hs
      match s with
      | [] => rw [lexText_nil]; rfl
      | c :: rest =>
        by_cases hc : c = '#'
        · subst hc
          match rest with
          | [] => rw [lexText_hash_nil]; rfl
          | d :: ds =>
            by_cases hd : isTokenChar d = true
            · rw [lexText_hash_tok d ds hd]
              simp only [List.map_cons, List.flatten_cons, lexChars]
              rw [ih (ds.dropWhile isTokenChar) (by
                have := (List.dropWhile_sublist (l := ds) isTokenChar).length_le
                simp only [List.length_cons] at hs
                omega)]
              simp [List.takeWhile_append_dropWhile]
            · rw [lexText_hash_notok d ds (by simpa using hd)]
              simp only [List.map_cons, List.flatten_cons, lexChars]
              rw [ih (d :: ds) (by simp only [List.length_cons] at hs ⊢; omega)]
              simp
        · rw [lexText_cons_ne c rest hc]
          simp only [List.map_cons, List.flatten_cons, lexChars]
          rw [ih rest (by simp only [List.length_cons] at hs; omega)]
          simp
  intro s
  exact main s.length s le_rfl

/-- The §4.2 scanner computes exactly the lexeme-level whole-token rewrite:
a reference token is rewritten iff its identifier equals the mapped one,
and nothing else in the text changes. -/
theorem rewriteRefs_eq_remapSpec (a b : List Char) (ha : a ≠ [])
    (hat : ∀ c ∈ a, isTokenChar c = true) :
    ∀ s, rewriteRefs a b s = remapSpec a b s := by
  have hsplitTok : ∀ (d : Char) (ds : List Char), isTokenChar d = true →
      d :: ds = (d :: ds.takeWhile isTokenChar) ++ ds.dropWhile isTokenChar := by
    intro d ds hd
    simp [List.takeWhile_append_dropWhile]
  have main : ∀ n, ∀ s : List Char, s.length ≤ n → rewriteRefs a b s = remapSpec a b s := by
    intro n
    induction n with
    | zero =>
      intro s hs
      have : s = [] := by
        cases s with
        | nil => rfl
        | cons c cs => simp at hs
      subst this
      simp [rewriteRefs, remapSpec, lexText_nil]
    | succ n ih =>
      intro s hs
      match s with
      | [] => simp [rewriteRefs, remapSpec, lexText_nil]
      | c :: rest =>
        by_cases hc : c = '#'
        · subst hc
          match rest with
          | [] =>
            have hpre : a.isPrefixOf ([] : List Char) = false := by
              cases a with
              | nil => exact absurd rfl ha
              | cons x xs => rfl
            rw [rewriteRefs, if_neg (by simp [hpre])]
            simp [rewriteRefs, remapSpec, lexText_hash_nil, lexRemap, lexChars]
          | d :: ds =>
            by_cases hd : isTokenChar d = true
            · by_cases hrun : d :: ds.takeWhile isTokenChar = a
              · have hsplit : d :: ds = a ++ ds.dropWhile isTokenChar := by
                  rw [← hrun]
                  exact hsplitTok d ds hd
                have hpre : a.isPrefixOf (d :: ds) = true := by
                  rw [hsplit]
                  exact List.isPrefixOf_iff_prefix.mpr (List.prefix_append a _)
                have hdrop : (d :: ds).drop a.length = ds.dropWhile isTokenChar := by
                  rw [hsplit, List.drop_left]
                have hend : tokenEnd ((d :: ds).drop a.length) = true := by
                  rw [hdrop]
                  exact tokenEnd_dropWhile ds
                rw [rewriteRefs, if_pos ⟨rfl, by rw [hpre], by rw [hend]⟩, hdrop]
                rw [ih (ds.dropWhile isTokenChar) (by
                  have := (List.dropWhile_sublist (l := ds) isTokenChar).length_le
                  simp only [List.length_cons] at hs
                  omega)]
                conv_rhs => rw [remapSpec, lexText_hash_tok d ds hd]
                simp only [List.map_cons, lexRemap, if_pos hrun, lexChars, List.flatten_cons,
                  remapSpec]
                simp
              · have hnofire :
                    ¬ (('#' : Char) = '#' ∧ a.isPrefixOf (d :: ds) = true ∧
                       tokenEnd ((d :: ds).drop a.length) = true) := by
                  rintro ⟨-, hpre, hend⟩
                  obtain ⟨t', ht'⟩ := List.isPrefixOf_iff_prefix.mp hpre
                  have htw : (d :: ds).takeWhile isTokenChar = a := by
                    rw [← ht', takeWhile_app_all isTokenChar a t' hat]
                    have hend' : tokenEnd t' = true := by
                      have : (d :: ds).drop a.length = t' := by
                        rw [← ht', List.drop_left]
                      rwa [this] at hend
                    rw [takeWhile_eq_nil_of_tokenEnd t' hend', List.append_nil]
                  apply hrun
                  rw [← htw, List.takeWhile_cons, if_pos hd]
                rw [rewriteRefs, if_neg hnofire]
                have hrunchars : ∀ x ∈ d :: ds.takeWhile isTokenChar, x ≠ '#' := by
                  intro x hx
                  have hxt : isTokenChar x = true := by
                    rcases hx with _ | hx'
                    · exact hd
                    · exact List.mem_takeWhile_imp (by assumption)
                  intro hxh
                  rw [hxh, isTokenChar_hash] at hxt
                  exact Bool.false_ne_true hxt
                conv_lhs => rw [hsplitTok d ds hd]
                rw [rewriteRefs_skip a b _ _ hrunchars]
                rw [ih (ds.dropWhile isTokenChar) (by
                  have := (List.dropWhile_sublist (l := ds) isTokenChar).length_le
                  simp only [List.length_cons] at hs
                  omega)]
                conv_rhs => rw [remapSpec, lexText_hash_tok d ds hd]
                simp only [List.map_cons, lexRemap, if_neg hrun, lexChars, List.flatten_cons,
                  remapSpec]
                simp
            · have hpre : ¬ (a.isPrefixOf (d :: ds) = true) := by
                cases a with
                | nil => exact absurd rfl ha
                | cons x xs =>
                  intro hp
                  rw [List.isPrefixOf_cons₂] at hp
                  have hx : (x == d) = true := by
                    cases hxd : (x == d) with
                    | true => rfl
                    | false => rw [hxd] at hp; exact absurd hp (by simp)
                  have : x = d := by simpa using hx
                  subst this
                  exact hd (hat x (by simp))
              rw [rewriteRefs, if_neg (by rintro ⟨-, h2, -⟩; exact hpre h2)]
              rw [ih (d :: ds) (by simp only [List.length_cons] at hs ⊢; omega)]
              conv_rhs => rw [remapSpec, lexText_hash_notok d ds (by simpa using hd)]
              simp only [List.map_cons, lexRemap, lexChars, List.flatten_cons, remapSpec]
              simp
        · rw [rewriteRefs, if_neg (fun h => hc h.1)]
          rw [ih rest (by simp only [List.length_cons] at hs; omega)]
          conv_rhs => rw [remapSpec, lexText_cons_ne c rest hc]
          simp only [List.map_cons, lexRemap, lexChars, List.flatten_cons, remapSpec]
          simp
  intro s
  exact main s.length s le_rfl

/-- A marker-free text is left untouched by the scanner. -/
theorem rewriteRefs_no_hash (a b : List Char) (s : List Char) (h : ∀ c ∈ s, c ≠ '#') :
    rewriteRefs a b s = s := by
  have hs := rewriteRefs_skip a b s [] h
  have hnil : rewriteRefs a b [] = [] := by simp [rewriteRefs]
  rw [List.append_nil] at hs
  rw [hs, hnil, List.append_nil]

/-- C3: Identifier remapping exactness.  For a mapping from provisional `a` to
permanent `b`, remapping rewrites the record's own identifier, the parent
reference and the blocked-by / blocks members exactly when they equal `a`,
and rewrites the title and body exactly at the whole reference tokens whose
identifier is `a` (the lexical decomposition is faithful: rendering it back
reproduces the text, and only `ref a` lexemes change).  A reference that
merely begins with `a` is never rewritten: mapping `T1` to `100` leaves the
field reference `T10` and the inline token `#T10` unchanged while `#T1` as a
whole token becomes `#100`. -/
theorem claim_C3_remap_exactness (a b : String) (ha : a ≠ "")
    (hat : ∀ c ∈ a.toList, isTokenChar c = true) :
    (∀ i : Issue,
      (applyMapping [(a, b)] i).1 =
        { i with
          number := mapId a b i.number
          title := String.mk (remapSpec a.toList b.toList i.title.toList)
          body := String.mk (remapSpec a.toList b.toList i.body.toList)
          parent := i.parent.map (mapId a b)
          blockedBy := i.blockedBy.map (mapId a b)
          blocks := i.blocks.map (mapId a b) }) ∧
    (∀ s : List Char, ((lexText s).map lexChars).flatten = s) ∧
    mapId "T1" "100" "T10" = "T10" ∧
    rewriteRefs "T1".toList "100".toList "#T10 end".toList = "#T10 end".toList ∧
    rewriteRefs "T1".toList "100".toList "#T1 end".toList = "#100 end".toList := by
  have ha' : a.toList ≠ [] := by
    intro h
    apply ha
    cases a with
    | mk data =>
      simp only [String.toList] at h
      rw [h]
  have hrw := rewriteRefs_eq_remapSpec a.toList b.toList ha' hat
  refine ⟨?_, lexChars_flatten, by decide, ?_, ?_⟩
  · intro i
    simp only [applyMapping, List.foldl_cons, List.foldl_nil, applyMapPair]
    rw [hrw i.title.toList, hrw i.body.toList]
  · rw [show ("#T10 end".toList) = '#' :: "T10 end".toList from rfl]
    rw [rewriteRefs, if_neg (by decide)]
    rw [rewriteRefs_no_hash _ _ _ (by decide)]
  · rw [show ("#T1 end".toList) = '#' :: "T1 end".toList from rfl]
    rw [rewriteRefs, if_pos ⟨rfl, by decide, by decide⟩]
    have hdrop : ("T1 end".toList.drop ("T1".toList.length)) = " end".toList := rfl
    rw [hdrop, rewriteRefs_no_hash _ _ _ (by decide)]
    decide

/-- Witness for C3 at the repository's own test vector: mapping `T1` to `123`
on the record of `TestApplyMapping` rewrites the parent, the first blocked-by
member and the body token `#T1`, and leaves `#T10` and the member `99`
alone. -/
theorem claim_C3_witness :
    (applyMapping [("T1", "123")]
        { number := "T2", title := "Test", body := "Refs #T1 and #T10\n"
          parent := some "T1", blockedBy := ["T1", "99"] }).1 =
      { number := "T2", title := "Test"
        body := String.mk (remapSpec "T1".toList "123".toList "Refs #T1 and #T10\n".toList)
        parent := some "123", blockedBy := ["123", "99"] } ∧
    String.mk (remapSpec "T1".toList "123".toList "Refs #T1 and #T10\n".toList) =
      "Refs #123 and #T10\n" := by
  have h := (claim_C3_remap_exactness "T1" "123" (by decide) (by decide)).1
    { number := "T2", title := "Test", body := "Refs #T1 and #T10\n"
      parent := some "T1", blockedBy := ["T1", "99"] }
  constructor
  · rw [h]
    have hs : String.mk (remapSpec "T1".toList "123".toList "Test".toList) = "Test" := by
      simp [remapSpec, lexText, isTokenChar, Char.isAlphanum, Char.isAlpha, Char.isDigit,
        Char.isLower, Char.isUpper, lexRemap, lexChars]
    simp only [hs]
    simp [mapId]
  · simp [remapSpec, lexText, isTokenChar, Char.isAlphanum, Char.isAlpha, Char.isDigit,
      Char.isLower, Char.isUpper, lexRemap, lexChars]

/-! ### Merge engine and push conflict decision -/

/-- A field on which local and remote did not both diverge merges without
conflict, taking the diverged side's value. -/
theorem mergeField_no_conflict {α : Type} [DecidableEq α] (base l r : α)
    (h : l = base ∨ r = base) :
    mergeField base l r = (if l = base then r else l, false) := by
  rcases h with h | h
  · simp [mergeField, h]
  · by_cases hl : l = base
    · simp [mergeField, hl]
    · simp [mergeField, hl, h]

/-- C2 (amended): disjoint concurrent edits merge cleanly in the merge engine,
but the push pass still reports the record as a conflict.  When local and
remote each diverged from base only on fields the other left alone, the
three-way merge is OK (empty Conflict Set) and takes the diverged side's value
for every field; the push pass, however, compares whole records: with an
original snapshot present and force off, any remote divergence from the
original combined with any difference between remote and local marks the
record as a conflict, so it is reported and not written — no field-level merge
is consulted during push. -/
theorem claim_C2_disjoint_edits (base l r original localRec remote : Issue)
    (h1 : (normalizeIssue l).title = (normalizeIssue base).title ∨
          (normalizeIssue r).title = (normalizeIssue base).title)
    (h2 : (normalizeIssue l).body = (normalizeIssue base).body ∨
          (normalizeIssue r).body = (normalizeIssue base).body)
    (h3 : (normalizeIssue l).labels = (normalizeIssue base).labels ∨
          (normalizeIssue r).labels = (normalizeIssue base).labels)
    (h4 : (normalizeIssue l).assignees = (normalizeIssue base).assignees ∨
          (normalizeIssue r).assignees = (normalizeIssue base).assignees)
    (h5 : (normalizeIssue l).milestone = (normalizeIssue base).milestone ∨
          (normalizeIssue r).milestone = (normalizeIssue base).milestone)
    (h6 : (normalizeIssue l).state = (normalizeIssue base).state ∨
          (normalizeIssue r).state = (normalizeIssue base).state)
    (hro : equalForConflictCheck remote original = false)
    (hrl : equalForConflictCheck remote localRec = false) :
    (threeWayMerge base l r).ok = true ∧
    (threeWayMerge base l r).conflicts = noFields ∧
    (threeWayMerge base l r).merged.title =
      (if (normalizeIssue l).title = (normalizeIssue base).title
       then (normalizeIssue r).title else (normalizeIssue l).title) ∧
    (threeWayMerge base l r).merged.labels =
      (if (normalizeIssue l).labels = (normalizeIssue base).labels
       then (normalizeIssue r).labels else (normalizeIssue l).labels) ∧
    (threeWayMerge base l r).merged.body =
      (if (normalizeIssue l).body = (normalizeIssue base).body
       then (normalizeIssue r).body else (normalizeIssue l).body) ∧
    pushDecision false true original localRec (some remote) = PushOutcome.conflict := by
  have e1 := mergeField_no_conflict (normalizeIssue base).title
    (normalizeIssue l).title (normalizeIssue r).title h1
  have e2 := mergeField_no_conflict (normalizeIssue base).body
    (normalizeIssue l).body (normalizeIssue r).body h2
  have e3 := mergeField_no_conflict (normalizeIssue base).labels
    (normalizeIssue l).labels (normalizeIssue r).labels h3
  have e4 := mergeField_no_conflict (normalizeIssue base).assignees
    (normalizeIssue l).assignees (normalizeIssue r).assignees h4
  have e5 := mergeField_no_conflict (normalizeIssue base).milestone
    (normalizeIssue l).milestone (normalizeIssue r).milestone h5
  have e6 := mergeField_no_conflict (normalizeIssue base).state
    (normalizeIssue l).state (normalizeIssue r).state h6
  refine ⟨?_, ?_, ?_, ?_, ?_, ?_⟩
  · simp [threeWayMerge, e1, e2, e3, e4, e5, e6, noFields]
  · simp [threeWayMerge, e1, e2, e3, e4, e5, e6, noFields]
  · simp [threeWayMerge, e1, e2, e3, e4, e5, e6]
  · simp [threeWayMerge, e1, e2, e3, e4, e5, e6]
  · simp [threeWayMerge, e1, e2, e3, e4, e5, e6]
  · simp [pushDecision, hro, hrl]

/-- Witness for C2 at the spec's own scenario: local changed only the title
(`A` to `B`), remote changed only the labels (`[bug]` to `[bug, urgent]`);
the merge engine is OK with merged title `B` and labels `[bug, urgent]`,
while the push pass reports the record as a conflict. -/
theorem claim_C2_witness :
    (threeWayMerge scenarioBase scenarioLocal scenarioRemote).ok = true ∧
    (threeWayMerge scenarioBase scenarioLocal scenarioRemote).conflicts = noFields ∧
    (threeWayMerge scenarioBase scenarioLocal scenarioRemote).merged.title =
      (if (normalizeIssue scenarioLocal).title = (normalizeIssue scenarioBase).title
       then (normalizeIssue scenarioRemote).title else (normalizeIssue scenarioLocal).title) ∧
    (threeWayMerge scenarioBase scenarioLocal scenarioRemote).merged.labels =
      (if (normalizeIssue scenarioLocal).labels = (normalizeIssue scenarioBase).labels
       then (normalizeIssue scenarioRemote).labels else (normalizeIssue scenarioLocal).labels) ∧
    (threeWayMerge scenarioBase scenarioLocal scenarioRemote).merged.body =
      (if (normalizeIssue scenarioLocal).body = (normalizeIssue scenarioBase).body
       then (normalizeIssue scenarioRemote).body else (normalizeIssue scenarioLocal).body) ∧
    pushDecision false true scenarioBase scenarioLocal (some scenarioRemote) =
      PushOutcome.conflict :=
  claim_C2_disjoint_edits scenarioBase scenarioLocal scenarioRemote
    scenarioBase scenarioLocal scenarioRemote
    (by decide) (by decide) (by decide) (by decide) (by decide) (by decide)
    (by decide) (by decide)

/-- C2 counterexample: at the spec's scenario (base title `A` labels `[bug]`,
local title `B` labels `[bug]`, remote title `A` labels `[bug, urgent]`) the
claim says the push pass detects no conflict and writes the merged record;
the push decision of `Push` (src/unnamed/part_001, lines 501-535) instead
classifies the record as a conflict — even though the merge engine confirms
the edits are disjoint (merge OK, merged title `B`, labels `[bug, urgent]`). -/
theorem claim_C2_counterexample :
    (threeWayMerge scenarioBase scenarioLocal scenarioRemote).ok = true ∧
    (threeWayMerge scenarioBase scenarioLocal scenarioRemote).merged.title = "B" ∧
    (threeWayMerge scenarioBase scenarioLocal scenarioRemote).merged.labels =
      ["bug", "urgent"] ∧
    pushDecision false true scenarioBase scenarioLocal (some scenarioRemote) =
      PushOutcome.conflict ∧
    pushDecision false true scenarioBase scenarioLocal (some scenarioRemote) ≠
      PushOutcome.proceed := by
  refine ⟨by decide, by decide, by decide, by decide, by decide⟩

/-! ### Creation-phase lemmas -/

/-- A provisional identifier is never equal to a permanent one. -/
theorem local_ne_nonlocal (u v : String) (hu : isLocalId u = true) (hv : isLocalId v = false) :
    u ≠ v := by
  intro h
  rw [h, hv] at hu
  exact Bool.false_ne_true hu

/-- Folding the identifier table either leaves the value or lands on some
target of the table. -/
theorem foldMapId_cases : ∀ (m : List (String × String)) (x : String),
    foldMapId m x = x ∨ ∃ p ∈ m, foldMapId m x = p.2 := by
  intro m
  induction m with
  | nil => intro x; left; rfl
  | cons q m' ih =>
    intro x
    have step : foldMapId (q :: m') x = foldMapId m' (mapId q.1 q.2 x) := rfl
    by_cases hx : x = q.1
    · rcases ih (mapId q.1 q.2 x) with h | ⟨p, hp, he⟩
      · right
        refine ⟨q, by simp, ?_⟩
        rw [step, h]
        simp [mapId, hx]
      · right
        exact ⟨p, by simp [hp], by rw [step, he]⟩
    · rcases ih (mapId q.1 q.2 x) with h | ⟨p, hp, he⟩
      · left
        rw [step, h]
        simp [mapId, hx]
      · right
        exact ⟨p, by simp [hp], by rw [step, he]⟩

/-- After folding a table whose sources are provisional and whose targets are
permanent, no value equals any source of the table. -/
theorem foldMapId_ne_source : ∀ (m : List (String × String)),
    (∀ p ∈ m, isLocalId p.1 = true) → (∀ p ∈ m, isLocalId p.2 = false) →
    ∀ x, ∀ p ∈ m, foldMapId m x ≠ p.1 := by
  intro m
  induction m with
  | nil => intro _ _ x p hp; simp at hp
  | cons q m' ih =>
    intro hsrc htgt x p hp
    have step : foldMapId (q :: m') x = foldMapId m' (mapId q.1 q.2 x) := rfl
    have hsrc' : ∀ r ∈ m', isLocalId r.1 = true := fun r hr => hsrc r (by simp [hr])
    have htgt' : ∀ r ∈ m', isLocalId r.2 = false := fun r hr => htgt r (by simp [hr])
    rcases List.mem_cons.mp hp with hp | hp'
    · subst hp
      rw [step]
      rcases foldMapId_cases m' (mapId p.1 p.2 x) with h | ⟨w, hw, he⟩
      · rw [h]
        by_cases hx : x = p.1
        · simp only [mapId, if_pos hx]
          exact (local_ne_nonlocal p.1 p.2 (hsrc p (by simp)) (htgt p (by simp))).symm
        · simp only [mapId, if_neg hx]
          exact hx
      · rw [he]
        exact (local_ne_nonlocal p.1 w.2 (hsrc p (by simp)) (htgt' w hw)).symm
    · rw [step]
      exact ih hsrc' htgt' (mapId q.1 q.2 x) p hp'

/-- The identifier-valued fields of a remapped record are the fold of the
table over the original fields. -/
theorem applyMapping_fields (m : List (String × String)) :
    ∀ i : Issue,
      ((applyMapping m i).1).number = foldMapId m i.number ∧
      ((applyMapping m i).1).parent = i.parent.map (foldMapId m) ∧
      ((applyMapping m i).1).blockedBy = i.blockedBy.map (foldMapId m) ∧
      ((applyMapping m i).1).blocks = i.blocks.map (foldMapId m) := by
  induction m with
  | nil =>
    intro i
    refine ⟨rfl, ?_, ?_, ?_⟩
    · cases hpar : i.parent with
      | none => simp [applyMapping, hpar]
      | some v => simp [applyMapping, hpar, foldMapId]
    · show i.blockedBy = _
      induction i.blockedBy with
      | nil => rfl
      | cons x xs ihx => simp [foldMapId, ← ihx]
    · show i.blocks = _
      induction i.blocks with
      | nil => rfl
      | cons x xs ihx => simp [foldMapId, ← ihx]
  | cons q m' ih =>
    intro i
    have h := ih (applyMapPair q.1 q.2 i)
    simp only [applyMapping, List.foldl_cons] at h ⊢
    refine ⟨h.1, ?_, ?_, ?_⟩
    · rw [h.2.1]
      show (i.parent.map (mapId q.1 q.2)).map (foldMapId m') = _
      rw [Option.map_map]
      rfl
    · rw [h.2.2.1]
      show (i.blockedBy.map (mapId q.1 q.2)).map (foldMapId m') = _
      rw [List.map_map]
      rfl
    · rw [h.2.2.2]
      show (i.blocks.map (mapId q.1 q.2)).map (foldMapId m') = _
      rw [List.map_map]
      rfl

/-- Every mapping pair recorded by the creation loop has a provisional source
and — when the oracle only ever assigns permanent ids — a permanent target. -/
theorem createLoop_mapping_prop (now : Nat) :
    ∀ (todo : List Issue) (oracle : List (Option String)) (done : List Issue)
      (mapping : List (String × String)) (created : List String) (st : CreateOutcome),
      (∀ p ∈ mapping, isLocalId p.1 = true ∧ isLocalId p.2 = false) →
      (∀ o ∈ oracle, ∀ n, o = some n → isLocalId n = false) →
      (createLoop now oracle done todo mapping created = .ok st ∨
       createLoop now oracle done todo mapping created = .error st) →
      ∀ p ∈ st.mapping, isLocalId p.1 = true ∧ isLocalId p.2 = false := by
  intro todo
  induction todo with
  | nil =>
    intro oracle done mapping created st hmap _ hrun
    rcases hrun with h | h
    · simp only [createLoop, Except.ok.injEq] at h
      subst h
      exact hmap
    · simp only [createLoop] at h
      exact Except.noConfusion h
  | cons i rest ih =>
    intro oracle done mapping created st hmap horacle hrun
    by_cases hloc : isLocalId i.number = true
    · match oracle with
      | [] =>
        rcases hrun with h | h <;> simp only [createLoop, hloc, if_true] at h
        · simp at h
        · simp only [Except.error.injEq] at h
          subst h
          exact hmap
      | none :: oracle' =>
        rcases hrun with h | h <;> simp only [createLoop, hloc, if_true] at h
        · simp at h
        · simp only [Except.error.injEq] at h
          subst h
          exact hmap
      | some newNum :: oracle' =>
        have hnew : isLocalId newNum = false := horacle (some newNum) (by simp) newNum rfl
        have hmap' : ∀ p ∈ mapping ++ [(i.number, newNum)],
            isLocalId p.1 = true ∧ isLocalId p.2 = false := by
          intro p hp
          rcases List.mem_append.mp hp with hp | hp
          · exact hmap p hp
          · simp only [List.mem_singleton] at hp
            subst hp
            exact ⟨hloc, hnew⟩
        have horacle' : ∀ o ∈ oracle', ∀ n, o = some n → isLocalId n = false :=
          fun o ho n he => horacle o (by simp [ho]) n he
        rcases hrun with h | h <;> simp only [createLoop, hloc, if_true] at h
        · exact ih oracle' _ _ _ st hmap' horacle' (Or.inl h)
        · exact ih oracle' _ _ _ st hmap' horacle' (Or.inr h)
    · have hloc' : isLocalId i.number = false := by simpa using hloc
      rcases hrun with h | h <;> simp only [createLoop, hloc', if_false] at h
      · exact ih oracle _ _ _ st hmap horacle (Or.inl h)
      · exact ih oracle _ _ _ st hmap horacle (Or.inr h)

/-- C4 (amended): records carrying provisional identifiers are created one at
a time, in order, and the combined provisional-to-permanent remapping is
applied across the whole record set once, after every creation succeeded;
a creation failure aborts the run before that remapping pass (the error state
is exactly the creation loop's state, with no cross-record rewrite applied),
so provisional references to already-created records can remain until a
re-run.  After a fully successful phase no identifier field anywhere in the
record set still holds a provisional identifier that was mapped. -/
theorem claim_C4_creation_sequencing (now : Nat) (oracle : List (Option String))
    (records : List Issue)
    (horacle : ∀ o ∈ oracle, ∀ n, o = some n → isLocalId n = false) :
    (∀ st, createLoop now oracle [] records [] [] = .error st →
      createPhase now oracle records = .error st) ∧
    (∀ st, createPhase now oracle records = .ok st →
      ∀ p ∈ st.mapping, ∀ j ∈ st.records,
        j.number ≠ p.1 ∧ j.parent ≠ some p.1 ∧ p.1 ∉ j.blockedBy ∧ p.1 ∉ j.blocks) := by
  constructor
  · intro st h
    simp only [createPhase, h]
  · intro st hok p hp j hj
    cases hloop : createLoop now oracle [] records [] [] with
    | error st0 =>
      simp only [createPhase, hloop] at hok
      exact Except.noConfusion hok
    | ok st0 =>
      simp only [createPhase, hloop] at hok
      have hprop : ∀ p ∈ st0.mapping, isLocalId p.1 = true ∧ isLocalId p.2 = false :=
        createLoop_mapping_prop now records oracle [] [] [] st0
          (by intro p hp; simp at hp) horacle (Or.inl hloop)
      by_cases hm : st0.mapping = []
      · rw [if_pos hm] at hok
        simp only [Except.ok.injEq] at hok
        subst hok
        rw [hm] at hp
        simp at hp
      · rw [if_neg hm] at hok
        simp only [Except.ok.injEq] at hok
        subst hok
        have hsrc : ∀ q ∈ st0.mapping, isLocalId q.1 = true := fun q hq => (hprop q hq).1
        have htgt : ∀ q ∈ st0.mapping, isLocalId q.2 = false := fun q hq => (hprop q hq).2
        simp only [remapAll, List.mem_map] at hj
        obtain ⟨i0, _, hje⟩ := hj
        have hf := applyMapping_fields st0.mapping i0
        have hne := foldMapId_ne_source st0.mapping hsrc htgt
        refine ⟨?_, ?_, ?_, ?_⟩
        · rw [← hje, hf.1]
          exact hne i0.number p hp
        · rw [← hje, hf.2.1]
          cases hpar : i0.parent with
          | none => simp
          | some v =>
            intro hcon
            have hv : foldMapId st0.mapping v = p.1 := by simpa using hcon
            exact hne v p hp hv
        · rw [← hje, hf.2.2.1]
          intro hcon
          obtain ⟨v, _, hv⟩ := List.mem_map.mp hcon
          exact hne v p hp hv
        · rw [← hje, hf.2.2.2]
          intro hcon
          obtain ⟨v, _, hv⟩ := List.mem_map.mp hcon
          exact hne v p hp hv

/-- Witness for C4 at concrete inputs: with two provisional records and both
creations succeeding, the phase completes and no mapped provisional id
survives anywhere; had the loop errored, the phase would return the loop's
state unchanged. -/
theorem claim_C4_witness :
    (∀ st, createLoop 0 [some "100", some "200"] []
        [{ number := "T1", title := "a", state := "open" },
         { number := "T2", title := "b", state := "open", blockedBy := ["T1"] }] [] [] =
          .error st →
      createPhase 0 [some "100", some "200"]
        [{ number := "T1", title := "a", state := "open" },
         { number := "T2", title := "b", state := "open", blockedBy := ["T1"] }] = .error st) ∧
    (∀ st, createPhase 0 [some "100", some "200"]
        [{ number := "T1", title := "a", state := "open" },
         { number := "T2", title := "b", state := "open", blockedBy := ["T1"] }] = .ok st →
      ∀ p ∈ st.mapping, ∀ j ∈ st.records,
        j.number ≠ p.1 ∧ j.parent ≠ some p.1 ∧ p.1 ∉ j.blockedBy ∧ p.1 ∉ j.blocks) :=
  claim_C4_creation_sequencing 0 [some "100", some "200"]
    [{ number := "T1", title := "a", state := "open" },
     { number := "T2", title := "b", state := "open", blockedBy := ["T1"] }]
    (by decide)

/-- C4 counterexample: with records `T1` and `T2` (the latter blocked by
`T1`) and a remote that accepts the first creation as `100` but fails the
second, the run aborts in the state below: `T1` was created (mapping
`T1 → 100` recorded, its own file renumbered), yet the second record's
blocked-by still reads `T1` — the remapping for the created record was *not*
applied across the record set before the next record was processed, leaving a
dangling provisional reference, contrary to the claim. -/
theorem claim_C4_counterexample :
    createPhase 0 [some "100", none]
      [{ number := "T1", title := "a", state := "open" },
       { number := "T2", title := "b", state := "open", blockedBy := ["T1"] }] =
    Except.error
      ⟨[{ number := "100", title := "a", state := "open", syncedAt := some 0 },
        { number := "T2", title := "b", state := "open", blockedBy := ["T1"] }],
       [("T1", "100")], ["100"]⟩ := rfl

/-! ### Mutation-phase lemmas -/

/-- When every state-transition call succeeds, the transition loop completes. -/
theorem transitionCalls_ok (o : MutOracle) : ∀ works : List MutWork,
    (∀ w ∈ works, (w.transition = some .closeIt → o.closeOk w.num = true) ∧
                  (w.transition = some .reopenIt → o.reopenOk w.num = true)) →
    transitionCalls o works = .ok () := by
  intro works
  induction works with
  | nil => intro _; rfl
  | cons w rest ih =>
    intro h
    have hw := h w (by simp)
    have hrest : ∀ x ∈ rest,
        (x.transition = some .closeIt → o.closeOk x.num = true) ∧
        (x.transition = some .reopenIt → o.reopenOk x.num = true) :=
      fun x hx => h x (by simp [hx])
    cases htr : w.transition with
    | none =>
      rw [transitionCalls, htr]
      exact ih hrest
    | some t =>
      cases t with
      | closeIt =>
        rw [transitionCalls, htr, if_pos (hw.1 htr)]
        exact ih hrest
      | reopenIt =>
        rw [transitionCalls, htr, if_pos (hw.2 htr)]
        exact ih hrest

/-- C5 (amended): per-record failures of the batched field edit (reported per
record inside a successful batch call), of the issue-type / relationship /
project syncs, and of comment posting are caught, logged as warnings naming
the record, and do not abort the run.  An open/closed state-transition call
failure (`CloseIssue` / `ReopenIssue`), however, aborts the whole run at once
— the error propagates out of the mutation phase — contrary to the claim that
only lock-acquisition and remapping-persistence failures are fatal. -/
theorem claim_C5_failure_isolation (o : MutOracle) (works : List MutWork)
    (comments : List String)
    (htrans : ∀ w ∈ works, (w.transition = some .closeIt → o.closeOk w.num = true) ∧
                           (w.transition = some .reopenIt → o.reopenOk w.num = true))
    (hbatch : o.batchCallOk = true) :
    (∃ warnings, mutatePhase o works comments = .ok warnings ∧
      (∀ w ∈ works, o.syncRelOk w.num = false → ("rel " ++ w.num) ∈ warnings) ∧
      (∀ c ∈ comments, o.commentOk c = false → ("comment " ++ c) ∈ warnings)) ∧
    (∀ (works' : List MutWork) (e : String), transitionCalls o works' = .error e →
      mutatePhase o works' comments = .error e) := by
  constructor
  · refine ⟨(if works.any (·.hasEdits)
        then o.batchErrors.map (fun p => "update " ++ p.1 ++ ": " ++ p.2) else []) ++
      (works.map (perWorkWarnings o)).flatten ++
      (comments.filter (fun c => !(o.commentOk c))).map (fun c => "comment " ++ c),
      ?_, ?_, ?_⟩
    · rw [mutatePhase, transitionCalls_ok o works htrans]
      simp [hbatch]
    · intro w hw hrel
      simp only [List.mem_append]
      refine Or.inl (Or.inr (List.mem_flatten.mpr
        ⟨perWorkWarnings o w, List.mem_map_of_mem _ hw, ?_⟩))
      simp [perWorkWarnings, hrel]
    · intro c hc hcom
      simp only [List.mem_append]
      refine Or.inr (List.mem_map.mpr ⟨c, List.mem_filter.mpr ⟨hc, by simp [hcom]⟩, rfl⟩)
  · intro works' e h
    rw [mutatePhase, h]

/-- Witness for C5 at concrete inputs: with the transitions and the batch call
succeeding, a relationship-sync failure on record `6` and a comment-post
failure on issue `9` are logged with the identifiers and the phase returns
OK; a transition-loop error is returned as the run's error. -/
theorem claim_C5_witness :
    (∃ warnings,
      mutatePhase
        { closeOk := fun _ => true, reopenOk := fun _ => true, batchCallOk := true,
          batchErrors := [], setTypeOk := fun _ => true,
          syncRelOk := fun n => decide (n ≠ "6"), syncProjOk := fun _ => true,
          commentOk := fun n => decide (n ≠ "9") }
        [{ num := "6", transition := none, hasEdits := true,
           changeType := false, changeProjects := false }] ["9"] = .ok warnings ∧
      (∀ w ∈ [({ num := "6", transition := none, hasEdits := true,
                 changeType := false, changeProjects := false } : MutWork)],
        (decide (w.num ≠ "6") : Bool) = false → ("rel " ++ w.num) ∈ warnings) ∧
      (∀ c ∈ ["9"], (decide (c ≠ "9") : Bool) = false → ("comment " ++ c) ∈ warnings)) ∧
    (∀ (works' : List MutWork) (e : String),
      transitionCalls
        { closeOk := fun _ => true, reopenOk := fun _ => true, batchCallOk := true,
          batchErrors := [], setTypeOk := fun _ => true,
          syncRelOk := fun n => decide (n ≠ "6"), syncProjOk := fun _ => true,
          commentOk := fun n => decide (n ≠ "9") } works' = .error e →
      mutatePhase
        { closeOk := fun _ => true, reopenOk := fun _ => true, batchCallOk := true,
          batchErrors := [], setTypeOk := fun _ => true,
          syncRelOk := fun n => decide (n ≠ "6"), syncProjOk := fun _ => true,
          commentOk := fun n => decide (n ≠ "9") } works' ["9"] = .error e) :=
  claim_C5_failure_isolation
    { closeOk := fun _ => true, reopenOk := fun _ => true, batchCallOk := true,
      batchErrors := [], setTypeOk := fun _ => true,
      syncRelOk := fun n => decide (n ≠ "6"), syncProjOk := fun _ => true,
      commentOk := fun n => decide (n ≠ "9") }
    [{ num := "6", transition := none, hasEdits := true,
       changeType := false, changeProjects := false }] ["9"]
    (by intro w hw; simp at hw; subst hw; simp) rfl

/-- C5 counterexample: a failure of one record's close call is not caught —
the mutation phase returns the error at once, so the run aborts and the
second record is never processed, contrary to the claim that a per-record
state-transition failure is logged and the run continues. -/
theorem claim_C5_counterexample :
    mutatePhase
      { closeOk := fun n => decide (n ≠ "5"), reopenOk := fun _ => true,
        batchCallOk := true, batchErrors := [], setTypeOk := fun _ => true,
        syncRelOk := fun _ => true, syncProjOk := fun _ => true,
        commentOk := fun _ => true }
      [{ num := "5", transition := some .closeIt, hasEdits := false,
         changeType := false, changeProjects := false },
       { num := "6", transition := none, hasEdits := true,
         changeType := false, changeProjects := false }] [] =
    Except.error "close 5" := rfl

/-! ### Dry-run frame -/

/-- C7 (amended): the dry-run branch of `Push` performs only reads and
reports — for every world, its trace contains no remote mutation and no
local write (no issue file, Original Snapshot or cache write), so the local
store and the remote system are left unchanged.  (The claim's other half —
that *every* read-side step of a real run is still performed — fails: see the
counterexample, the remote conflict-detection fetch is skipped.) -/
theorem claim_C7_dry_run_frame (w : PushWorld) :
    (pushTrace true w).filter (fun a => isRemoteMutation a || isLocalWrite a) = [] := by
  rw [List.filter_eq_nil_iff]
  intro a ha
  simp only [pushTrace, if_true, List.mem_append, List.mem_map, List.mem_flatten] at ha
  rcases ha with ((((ha | ha) | ha) | ha) | ⟨l, ⟨i, _, hl⟩, ha⟩) | ha
  · simp only [List.mem_cons] at ha
    rcases ha with rfl | rfl | rfl | h
    · simp [isRemoteMutation, isLocalWrite]
    · simp [isRemoteMutation, isLocalWrite]
    · simp [isRemoteMutation, isLocalWrite]
    · simp at h
  · obtain ⟨x, _, rfl⟩ := ha
    simp [isRemoteMutation, isLocalWrite]
  · obtain ⟨x, _, rfl⟩ := ha
    simp [isRemoteMutation, isLocalWrite]
  · obtain ⟨x, _, rfl⟩ := ha
    simp [isRemoteMutation, isLocalWrite]
  · subst hl
    simp only [List.mem_cons] at ha
    rcases ha with rfl | ha
    · simp [isRemoteMutation, isLocalWrite]
    · by_cases hch : localChangedIn w i
      · rw [if_pos hch] at ha
        simp only [List.mem_singleton] at ha
        subst ha
        simp [isRemoteMutation, isLocalWrite]
      · rw [if_neg hch] at ha
        simp at ha
  · obtain ⟨x, _, rfl⟩ := ha
    simp [isRemoteMutation, isLocalWrite]

/-- C7 counterexample: in `dryRunWorld` the real run performs the batched
remote fetch for conflict detection — a read-side step — which the dry run
does not perform, so "every read-side step is performed" fails as stated. -/
theorem claim_C7_counterexample :
    Action.fetchIssuesBatch ["7"] ∈ pushTrace false dryRunWorld ∧
    Action.fetchIssuesBatch ["7"] ∉ pushTrace true dryRunWorld ∧
    isReadStep (Action.fetchIssuesBatch ["7"]) = true ∧
    (pushTrace true dryRunWorld).filter
      (fun a => isRemoteMutation a || isLocalWrite a) = [] := by
  refine ⟨by decide, by decide, rfl, by decide⟩

/-! ### Serialization lemmas: numerals -/

/-- Every digit of the fuelled decomposition is a decimal digit. -/
theorem natToRevDigits_lt : ∀ fuel n, ∀ d ∈ natToRevDigits fuel n, d < 10 := by
  intro fuel
  induction fuel with
  | zero =>
    intro n d hd
    simp [natToRevDigits] at hd
  | succ f ih =>
    intro n d hd
    match n with
    | 0 => simp [natToRevDigits] at hd
    | m + 1 =>
      simp only [natToRevDigits] at hd
      rcases List.mem_cons.mp hd with rfl | hd'
      · exact Nat.mod_lt _ (by omega)
      · exact ih _ d hd'

/-- The fuelled decomposition is faithful once the fuel covers the value. -/
theorem revDigitsVal_natToRevDigits : ∀ fuel n, n ≤ fuel →
    revDigitsVal (natToRevDigits fuel n) = n := by
  intro fuel
  induction fuel with
  | zero =>
    intro n h
    interval_cases n
    rfl
  | succ f ih =>
    intro n h
    match n with
    | 0 => rfl
    | m + 1 =>
      have hdiv : (m + 1) / 10 ≤ f := by omega
      simp only [natToRevDigits, revDigitsVal]
      rw [ih _ hdiv]
      omega

/-- Digit characters decode to their value, and collide with none of the
scalar-syntax markers. -/
theorem digitChar_props (d : Nat) (h : d < 10) :
    digitVal? (digitChar d) = some d ∧ digitChar d ≠ '"' ∧ digitChar d ≠ '@' ∧
    digitChar d ≠ '-' ∧ digitChar d ≠ 'n' ∧ digitChar d ≠ '\n' ∧ digitChar d ≠ ':' ∧
    digitChar d ≠ ' ' := by
  interval_cases d <;> exact (by decide)

/-- Parsing distributes over appended digit runs. -/
theorem natParseAux_append (acc : Nat) : ∀ xs ys, natParseAux acc (xs ++ ys) =
    match natParseAux acc xs with
    | some a => natParseAux a ys
    | none => none := by
  intro xs
  induction xs generalizing acc with
  | nil => intro ys; rfl
  | cons c rest ih =>
    intro ys
    simp only [List.cons_append, natParseAux]
    cases h : digitVal? c with
    | none => rfl
    | some d => exact ih (acc * 10 + d) ys

/-- Parsing the rendered digit run recovers the value. -/
theorem natParseAux_digits : ∀ ds : List Nat, (∀ d ∈ ds, d < 10) →
    ∀ acc, natParseAux acc (ds.reverse.map digitChar) =
      some (acc * 10 ^ ds.length + revDigitsVal ds) := by
  intro ds
  induction ds with
  | nil =>
    intro _ acc
    simp [natParseAux, revDigitsVal]
  | cons d ds' ih =>
    intro hds acc
    simp only [List.reverse_cons, List.map_append, List.map_cons, List.map_nil]
    rw [natParseAux_append]
    rw [ih (fun x hx => hds x (by simp [hx])) acc]
    simp only [natParseAux, (digitChar_props d (hds d (by simp))).1]
    simp only [revDigitsVal, List.length_cons]
    congr 1
    ring

/-- Parsing inverts rendering on naturals. -/
theorem natParse_natRender (n : Nat) : natParse (natRender n) = some n := by
  by_cases h0 : n = 0
  · subst h0
    decide
  · have hne : natToRevDigits n n ≠ [] := by
      match n, h0 with
      | m + 1, _ => simp [natToRevDigits]
    rw [natRender, if_neg h0]
    have key := natParseAux_digits (natToRevDigits n n) (natToRevDigits_lt n n) 0
    rw [revDigitsVal_natToRevDigits n n le_rfl] at key
    cases hrd : (natToRevDigits n n).reverse with
    | nil =>
      exact absurd (by simpa using congrArg List.reverse hrd) hne
    | cons a as =>
      rw [hrd] at key
      simp only [List.map_cons] at key ⊢
      show natParseAux 0 (digitChar a :: List.map digitChar as) = some n
      simpa using key

/-- The rendered natural starts with a digit character. -/
theorem natRender_shape (n : Nat) : ∃ d ds, natRender n = digitChar d :: ds ∧ d < 10 := by
  by_cases h0 : n = 0
  · subst h0
    exact ⟨0, [], rfl, by omega⟩
  · rw [natRender, if_neg h0]
    cases hrd : (natToRevDigits n n).reverse with
    | nil =>
      have hne : natToRevDigits n n ≠ [] := by
        match n, h0 with
        | m + 1, _ => simp [natToRevDigits]
      exact absurd (by simpa using congrArg List.reverse hrd) hne
    | cons a as =>
      refine ⟨a, as.map digitChar, rfl, ?_⟩
      have ha : a ∈ natToRevDigits n n := by
        have : a ∈ (natToRevDigits n n).reverse := by rw [hrd]; simp
        simpa using this
      exact natToRevDigits_lt n n a ha

/-- Every character of a rendered natural is a digit character. -/
theorem natRender_mem (n : Nat) : ∀ c ∈ natRender n, ∃ d, d < 10 ∧ c = digitChar d := by
  intro c hc
  by_cases h0 : n = 0
  · subst h0
    simp only [natRender] at hc
    simp at hc
    exact ⟨0, by omega, by rw [hc]; rfl⟩
  · rw [natRender, if_neg h0] at hc
    obtain ⟨d, hd, rfl⟩ := List.mem_map.mp hc
    exact ⟨d, natToRevDigits_lt n n d (by simpa using hd), rfl⟩

/-! ### Serialization lemmas: scalars -/

/-- Unfolding `unquoteChars` at an escape pair. -/
theorem unquoteChars_esc (c : Char) (rest : List Char) :
    unquoteChars ('\\' :: c :: rest) =
      (unquoteChars rest).map (fun xs => (if c = 'n' then '\n' else c) :: xs) := rfl

/-- Unfolding `unquoteChars` at an ordinary character. -/
theorem unquoteChars_other (c : Char) (rest : List Char) (h2 : c ≠ '\\') (h1 : c ≠ '"') :
    unquoteChars (c :: rest) = (unquoteChars rest).map (fun xs => c :: xs) := by
  rw [unquoteChars.eq_def]
  simp only [h1, h2, if_false]

/-- Unquoting inverts quoting, newlines included. -/
theorem unquote_quote : ∀ cs : List Char, unquoteChars (quoteChars cs ++ ['"']) = some cs := by
  intro cs
  induction cs with
  | nil => decide
  | cons c rest ih =>
    by_cases hn : c = '\n'
    · subst hn
      rw [quoteChars, if_pos rfl]
      simp only [List.cons_append]
      rw [unquoteChars_esc, ih]
      rfl
    · by_cases hc : c = '"' ∨ c = '\\'
      · have hcn : (if c = 'n' then '\n' else c) = c :=
          if_neg (by rcases hc with h | h <;> (subst h; decide))
        rw [quoteChars, if_neg hn, if_pos hc]
        simp only [List.cons_append]
        rw [unquoteChars_esc, hcn, ih]
        rfl
      · have hc1 : c ≠ '"' := fun h => hc (Or.inl h)
        have hc2 : c ≠ '\\' := fun h => hc (Or.inr h)
        rw [quoteChars, if_neg hn, if_neg hc]
        simp only [List.cons_append]
        rw [unquoteChars_other c _ hc2 hc1, ih]
        rfl

/-- The rendered integer is parsed back as that integer. -/
theorem parseScalar_intRender (n : Int) : parseScalarC (intRender n) = some (.yint n) := by
  by_cases hneg : n < 0
  · rw [intRender, if_pos hneg]
    obtain ⟨d, ds, hsh, hd⟩ := natRender_shape n.natAbs
    have hp := digitChar_props d hd
    rw [parseScalarC]
    rw [if_neg (by simp)]
    rw [if_neg (by decide), if_neg (by decide), if_pos rfl]
    rw [natParse_natRender]
    show some (YVal.yint (-(n.natAbs : Int))) = some (.yint n)
    have hn : -(n.natAbs : Int) = n := by omega
    rw [hn]
  · rw [intRender, if_neg hneg]
    obtain ⟨d, ds, hsh, hd⟩ := natRender_shape n.natAbs
    have hp := digitChar_props d hd
    rw [hsh]
    rw [parseScalarC]
    rw [if_neg (by simp [hp.2.2.2.2.1])]
    rw [if_neg hp.2.1, if_neg hp.2.2.1, if_neg hp.2.2.2.1]
    rw [← hsh, natParse_natRender]
    show some (YVal.yint (n.natAbs : Int)) = some (.yint n)
    have hn : (n.natAbs : Int) = n := by omega
    rw [hn]

/-- Parsing the scalar text of a line-safe wire value recovers the value. -/
theorem parseScalar_scalarChars (v : YVal) (hv : scalarWF v) :
    parseScalarC (scalarChars v) = some v := by
  cases v with
  | ynull => rfl
  | yint n => exact parseScalar_intRender n
  | ystr s =>
    show parseScalarC ('"' :: (quoteChars s.toList ++ ['"'])) = _
    rw [parseScalarC]
    rw [if_neg (by simp)]
    rw [if_pos rfl]
    rw [unquote_quote]
    rfl
  | ytime t =>
    show parseScalarC ('@' :: natRender t) = _
    rw [parseScalarC]
    rw [if_neg (by simp)]
    rw [if_neg (by decide), if_pos rfl]
    rw [natParse_natRender]
    rfl
  | yseq xs => exact absurd hv (by simp [scalarWF])

/-! ### Serialization lemmas: the line layer -/

/-- Splitting always yields at least one line. -/
theorem splitNL_ne_nil : ∀ cs : List Char, splitNL cs ≠ [] := by
  intro cs
  cases cs with
  | nil => simp [splitNL]
  | cons c rest =>
    rw [splitNL]
    by_cases hc : c = '\n'
    · simp [hc]
    · rw [if_neg hc]
      cases splitNL rest <;> simp

/-- Joining inverts splitting. -/
theorem joinNL_splitNL : ∀ cs : List Char, joinNL (splitNL cs) = cs := by
  intro cs
  induction cs with
  | nil => rfl
  | cons c rest ih =>
    cases hs : splitNL rest with
    | nil => exact absurd hs (splitNL_ne_nil rest)
    | cons l ls =>
      rw [hs] at ih
      rw [splitNL]
      by_cases hc : c = '\n'
      · rw [if_pos hc, hs]
        show [] ++ '\n' :: joinNL (l :: ls) = c :: rest
        rw [ih, hc]
        rfl
      · rw [if_neg hc, hs]
        cases ls with
        | nil =>
          show c :: l = c :: rest
          rw [show joinNL [l] = l from rfl] at ih
          rw [ih]
        | cons l2 ls2 =>
          show (c :: l) ++ '\n' :: joinNL (l2 :: ls2) = c :: rest
          rw [show joinNL (l :: l2 :: ls2) = l ++ '\n' :: joinNL (l2 :: ls2) from rfl] at ih
          rw [List.cons_append, ih]

/-- A newline-free line followed by a newline splits off as one line. -/
theorem splitNL_line : ∀ (l rest : List Char), (∀ c ∈ l, c ≠ '\n') →
    splitNL (l ++ '\n' :: rest) = l :: splitNL rest := by
  intro l
  induction l with
  | nil =>
    intro rest _
    show splitNL ('\n' :: rest) = [] :: splitNL rest
    rw [splitNL, if_pos rfl]
  | cons c l2 ih =>
    intro rest h
    rw [List.cons_append, splitNL, if_neg (h c (by simp))]
    rw [ih rest (fun x hx => h x (by simp [hx]))]

/-- Newline-terminated newline-free lines split back into themselves. -/
theorem splitNL_lines : ∀ (ls : List (List Char)) (rest : List Char),
    (∀ l ∈ ls, ∀ c ∈ l, c ≠ '\n') →
    splitNL ((ls.map (fun l => l ++ ['\n'])).flatten ++ rest) = ls ++ splitNL rest := by
  intro ls
  induction ls with
  | nil =>
    intro rest _
    simp
  | cons l ls2 ih =>
    intro rest h
    simp only [List.map_cons, List.flatten_cons, List.append_assoc, List.singleton_append,
      List.cons_append, List.nil_append]
    rw [splitNL_line l ((List.map (fun x => x ++ ['\n']) ls2).flatten ++ rest) (h l (by simp))]
    rw [ih rest (fun x hx => h x (by simp [hx]))]

/-- The first closing delimiter line splits the line list. -/
theorem findDelim_append : ∀ (ls : List (List Char)) (rest : List (List Char)),
    (∀ l ∈ ls, l ≠ ['-', '-', '-']) →
    findDelim (ls ++ ['-', '-', '-'] :: rest) = some (ls, rest) := by
  intro ls
  induction ls with
  | nil =>
    intro rest _
    show findDelim (['-', '-', '-'] :: rest) = _
    rw [findDelim, if_pos rfl]
  | cons l ls2 ih =>
    intro rest h
    rw [List.cons_append, findDelim, if_neg (h l (by simp))]
    rw [ih rest (fun x hx => h x (by simp [hx]))]
    rfl

/-- `takeWhile` passes over a block of satisfying elements. -/
theorem takeWhile_app_all2 {α : Type} (p : α → Bool) : ∀ (u v : List α),
    (∀ x ∈ u, p x = true) → (u ++ v).takeWhile p = u ++ v.takeWhile p := by
  intro u
  induction u with
  | nil => simp
  | cons a u2 ih =>
    intro v hu
    rw [List.cons_append, List.takeWhile_cons, if_pos (hu a (by simp))]
    rw [ih v (fun x hx => hu x (by simp [hx]))]
    simp

/-- `dropWhile` passes over a block of satisfying elements. -/
theorem dropWhile_app_all2 {α : Type} (p : α → Bool) : ∀ (u v : List α),
    (∀ x ∈ u, p x = true) → (u ++ v).dropWhile p = v.dropWhile p := by
  intro u
  induction u with
  | nil => simp
  | cons a u2 ih =>
    intro v hu
    rw [List.cons_append, List.dropWhile_cons, if_pos (hu a (by simp))]
    exact ih v (fun x hx => hu x (by simp [hx]))

/-- A failing head stops `takeWhile` at once. -/
theorem takeWhile_eq_nil_head {α : Type} (p : α → Bool) (l : List α)
    (h : ∀ x, l.head? = some x → p x = false) : l.takeWhile p = [] := by
  cases l with
  | nil => rfl
  | cons a t => rw [List.takeWhile_cons, if_neg (by simp [h a rfl])]

/-- A failing head makes `dropWhile` keep everything. -/
theorem dropWhile_eq_self_head {α : Type} (p : α → Bool) (l : List α)
    (h : ∀ x, l.head? = some x → p x = false) : l.dropWhile p = l := by
  cases l with
  | nil => rfl
  | cons a t => rw [List.dropWhile_cons, if_neg (by simp [h a rfl])]

/-- The head surviving `dropWhile` fails the predicate. -/
theorem head?_dropWhile_false {α : Type} (p : α → Bool) : ∀ (l : List α) (x : α),
    (l.dropWhile p).head? = some x → p x = false := by
  intro l
  induction l with
  | nil => intro x hx; simp at hx
  | cons a t ih =>
    intro x hx
    rw [List.dropWhile_cons] at hx
    by_cases hp : p a = true
    · rw [if_pos hp] at hx
      exact ih x hx
    · rw [if_neg hp] at hx
      simp only [List.head?_cons, Option.some.injEq] at hx
      subst hx
      simpa using hp

/-- `dropWhile` keeps the last element of a nonempty result. -/
theorem getLast?_dropWhile {α : Type} (p : α → Bool) : ∀ l : List α,
    l.dropWhile p ≠ [] → (l.dropWhile p).getLast? = l.getLast? := by
  intro l
  induction l with
  | nil => intro h; simp at h
  | cons a t ih =>
    intro h
    rw [List.dropWhile_cons] at h ⊢
    by_cases hp : p a = true
    · rw [if_pos hp] at h ⊢
      have ht : t ≠ [] := by
        intro e
        rw [e] at h
        exact h rfl
      rw [ih h]
      cases t with
      | nil => exact absurd rfl ht
      | cons b u => rw [List.getLast?_cons_cons]
    · rw [if_neg hp]

/-! ### Set-field canonicalisation lemmas -/

/-- Trimming is idempotent. -/
theorem trimChars_idem (cs : List Char) : trimChars (trimChars cs) = trimChars cs := by
  have key : ∀ ds : List Char,
      (∀ x, ds.head? = some x → Char.isWhitespace x = false) →
      (∀ x, ds.getLast? = some x → Char.isWhitespace x = false) →
      trimChars ds = ds := by
    intro ds h1 h2
    show ((ds.dropWhile Char.isWhitespace).reverse.dropWhile Char.isWhitespace).reverse = ds
    rw [dropWhile_eq_self_head _ _ h1]
    rw [dropWhile_eq_self_head _ _ (fun x hx => h2 x (by rwa [List.head?_reverse] at hx))]
    exact List.reverse_reverse ds
  by_cases hBe : (cs.dropWhile Char.isWhitespace).reverse.dropWhile Char.isWhitespace = []
  · show trimChars (((cs.dropWhile Char.isWhitespace).reverse.dropWhile Char.isWhitespace).reverse) =
      ((cs.dropWhile Char.isWhitespace).reverse.dropWhile Char.isWhitespace).reverse
    rw [hBe]
    rfl
  · apply key
    · intro x hx
      rw [show trimChars cs =
        ((cs.dropWhile Char.isWhitespace).reverse.dropWhile Char.isWhitespace).reverse from rfl] at hx
      rw [List.head?_reverse] at hx
      rw [getLast?_dropWhile _ _ hBe] at hx
      rw [List.getLast?_reverse] at hx
      exact head?_dropWhile_false _ cs x hx
    · intro x hx
      rw [show trimChars cs =
        ((cs.dropWhile Char.isWhitespace).reverse.dropWhile Char.isWhitespace).reverse from rfl] at hx
      rw [List.getLast?_reverse] at hx
      exact head?_dropWhile_false _ _ x hx

/-- String trimming is idempotent. -/
theorem trimStr_idem (s : String) : trimStr (trimStr s) = trimStr s := by
  show String.mk (trimChars (String.mk (trimChars s.toList)).toList) = _
  rw [show (String.mk (trimChars s.toList)).toList = trimChars s.toList from rfl]
  rw [trimChars_idem]
  rfl

/-- Every output of the dedup pass is a nonempty trimmed item outside `seen`. -/
theorem dedupKeep_sub : ∀ (xs seen : List String) (y : String),
    y ∈ dedupKeep seen xs → (∃ x ∈ xs, y = trimStr x) ∧ y ≠ "" ∧ y ∉ seen := by
  intro xs
  induction xs with
  | nil =>
    intro seen y hy
    simp [dedupKeep] at hy
  | cons x xs2 ih =>
    intro seen y hy
    simp only [dedupKeep] at hy
    by_cases hc : trimStr x = "" ∨ trimStr x ∈ seen
    · rw [if_pos hc] at hy
      obtain ⟨⟨z, hz, he⟩, hne, hns⟩ := ih seen y hy
      exact ⟨⟨z, by simp [hz], he⟩, hne, hns⟩
    · rw [if_neg hc] at hy
      push_neg at hc
      rcases List.mem_cons.mp hy with he | ht
      · exact ⟨⟨x, by simp, he⟩, by rw [he]; exact hc.1, by rw [he]; exact hc.2⟩
      · obtain ⟨⟨z, hz, he⟩, hne, hns⟩ := ih _ y ht
        refine ⟨⟨z, by simp [hz], he⟩, hne, ?_⟩
        intro hmem
        exact hns (by simp [hmem])

/-- The dedup pass yields a duplicate-free list. -/
theorem dedupKeep_nodup : ∀ (xs seen : List String), (dedupKeep seen xs).Nodup := by
  intro xs
  induction xs with
  | nil => intro seen; simp [dedupKeep]
  | cons x xs2 ih =>
    intro seen
    simp only [dedupKeep]
    by_cases hc : trimStr x = "" ∨ trimStr x ∈ seen
    · rw [if_pos hc]
      exact ih seen
    · rw [if_neg hc]
      refine List.nodup_cons.mpr ⟨?_, ih _⟩
      intro hmem
      exact (dedupKeep_sub xs2 _ _ hmem).2.2 (by simp)

/-- A duplicate-free list of nonempty trimmed items passes through the dedup
pass unchanged. -/
theorem dedupKeep_eq_self : ∀ (xs seen : List String),
    (∀ y ∈ xs, trimStr y = y ∧ y ≠ "" ∧ y ∉ seen) → xs.Nodup → dedupKeep seen xs = xs := by
  intro xs
  induction xs with
  | nil => intro seen _ _; rfl
  | cons x xs2 ih =>
    intro seen h hn
    obtain ⟨htr, hne, hns⟩ := h x (by simp)
    simp only [dedupKeep, htr]
    rw [if_neg (by push_neg; exact ⟨hne, hns⟩)]
    congr 1
    apply ih
    · intro y hy
      obtain ⟨a, b, c⟩ := h y (by simp [hy])
      refine ⟨a, b, ?_⟩
      intro hmem
      rcases List.mem_cons.mp hmem with he | hs
      · rw [he] at hy
        exact (List.nodup_cons.mp hn).1 hy
      · exact c hs
    · exact (List.nodup_cons.mp hn).2

/-- Go string comparison is total. -/
theorem charListLe_total : ∀ as bs : List Char,
    charListLe as bs = true ∨ charListLe bs as = true := by
  intro as
  induction as with
  | nil => intro bs; left; rfl
  | cons a as2 ih =>
    intro bs
    cases bs with
    | nil => right; rfl
    | cons b bs2 =>
      rcases lt_trichotomy a b with h | h | h
      · left
        rw [charListLe, if_pos h]
      · subst h
        rcases ih bs2 with h2 | h2
        · left
          rw [charListLe, if_neg (lt_irrefl a), if_neg (lt_irrefl a)]
          exact h2
        · right
          rw [charListLe, if_neg (lt_irrefl a), if_neg (lt_irrefl a)]
          exact h2
      · right
        rw [charListLe, if_pos h]

/-- Go string comparison is transitive. -/
theorem charListLe_trans : ∀ as bs cs : List Char, charListLe as bs = true →
    charListLe bs cs = true → charListLe as cs = true := by
  intro as
  induction as with
  | nil => intro bs cs _ _; rfl
  | cons a as2 ih =>
    intro bs cs h1 h2
    cases bs with
    | nil => exact absurd h1 (by simp [charListLe])
    | cons b bs2 =>
      cases cs with
      | nil => exact absurd h2 (by simp [charListLe])
      | cons c cs2 =>
        rw [charListLe] at h1 h2 ⊢
        by_cases hab : a < b
        · by_cases hbc : b < c
          · rw [if_pos (lt_trans hab hbc)]
          · by_cases hcb : c < b
            · rw [if_neg hbc, if_pos hcb] at h2
              exact absurd h2 (by simp)
            · have hbc2 : b = c := le_antisymm (not_lt.mp hcb) (not_lt.mp hbc)
              subst hbc2
              rw [if_pos hab]
        · by_cases hba : b < a
          · rw [if_neg hab, if_pos hba] at h1
            exact absurd h1 (by simp)
          · have hab2 : a = b := le_antisymm (not_lt.mp hba) (not_lt.mp hab)
            subst hab2
            rw [if_neg hab, if_neg hba] at h1
            by_cases hac : a < c
            · rw [if_pos hac]
            · by_cases hca : c < a
              · rw [if_neg hac, if_pos hca] at h2
                exact absurd h2 (by simp)
              · rw [if_neg hac, if_neg hca] at h2 ⊢
                exact ih bs2 cs2 h1 h2

instance : IsTotal String (fun a b : String => strLe a b = true) :=
  ⟨fun a b => charListLe_total a.toList b.toList⟩

instance : IsTrans String (fun a b : String => strLe a b = true) :=
  ⟨fun a b c => charListLe_trans a.toList b.toList c.toList⟩

/-- The set-field canonicalisation is idempotent. -/
theorem sortedStrings_idem (xs : List String) :
    sortedStrings (sortedStrings xs) = sortedStrings xs := by
  have hperm : (List.insertionSort (fun a b : String => strLe a b = true)
      (dedupKeep [] xs)).Perm (dedupKeep [] xs) := List.perm_insertionSort _ _
  have hmem : ∀ y ∈ sortedStrings xs, trimStr y = y ∧ y ≠ "" := by
    intro y hy
    have hyd : y ∈ dedupKeep [] xs := hperm.mem_iff.mp hy
    obtain ⟨⟨x, hx, he⟩, hne, -⟩ := dedupKeep_sub xs [] y hyd
    subst he
    exact ⟨trimStr_idem x, hne⟩
  have hnd : (sortedStrings xs).Nodup := hperm.nodup_iff.mpr (dedupKeep_nodup xs [])
  have hsorted : List.Sorted (fun a b : String => strLe a b = true) (sortedStrings xs) :=
    List.sorted_insertionSort _ _
  show List.insertionSort _ (dedupKeep [] (sortedStrings xs)) = sortedStrings xs
  rw [dedupKeep_eq_self _ [] (fun y hy => ⟨(hmem y hy).1, (hmem y hy).2, by simp⟩) hnd]
  exact List.Sorted.insertionSort_eq hsorted

/-! ### Front-matter decode lemmas -/

/-- Decoding a marshalled plain-string sequence is the identity. -/
theorem map_decodeStr_ystr (l : List String) : List.map (decodeStr ∘ YVal.ystr) l = l := by
  induction l with
  | nil => rfl
  | cons a t ih =>
    simp only [List.map_cons, ih]
    rfl

/-- Composition form of the identifier-sequence round trip. -/
theorem map_unmarshal_marshal_eq (l : List String) :
    List.map (unmarshalId ∘ marshalId) l = l.map (fun r => unmarshalId (marshalId r)) := by
  induction l with
  | nil => rfl
  | cons a t ih =>
    simp only [List.map_cons, ih]
    rfl

set_option maxHeartbeats 2000000 in
/-- Decoding the encoded front matter recovers every field (identifier fields
up to the yaml numeral round trip). -/
theorem decodeFM_encodeFM (i : Issue) :
    decodeFM (encodeFM i) =
      { number := unmarshalId (marshalId i.number)
        title := i.title
        labels := sortedStrings i.labels
        assignees := sortedStrings i.assignees
        milestone := i.milestone
        state := i.state
        stateReason := i.stateReason
        parent := match i.parent with | none => none | some r => decodeOptId (marshalId r)
        blockedBy := (sortedStrings i.blockedBy).map (fun r => unmarshalId (marshalId r))
        blocks := (sortedStrings i.blocks).map (fun r => unmarshalId (marshalId r))
        syncedAt := i.syncedAt } := by
  rcases hpar : i.parent with _ | r <;>
  rcases hsync : i.syncedAt with _ | t <;>
  rcases hsr : i.stateReason with _ | s <;>
  by_cases hl : sortedStrings i.labels = [] <;>
  by_cases ha : sortedStrings i.assignees = [] <;>
  by_cases hm : i.milestone = "" <;>
  by_cases hs : i.state = "" <;>
  by_cases hb1 : sortedStrings i.blockedBy = [] <;>
  by_cases hb2 : sortedStrings i.blocks = [] <;>
  simp +decide [encodeFM, hpar, hsync, hsr, hl, ha, hm, hs, hb1, hb2, decodeFM, applyFMEntry,
    decodeStr, decodeSeqStrs, decodeSeqIds, decodeOptStr, decodeOptId, decodeTime,
    map_decodeStr_ystr, map_unmarshal_marshal_eq]

/-- A canonical identifier survives the yaml marshal/unmarshal round trip. -/
theorem unmarshalId_marshalId (s : String) (h : canonicalId s = true) :
    unmarshalId (marshalId s) = s := by
  rw [marshalId]
  by_cases h0 : s = ""
  · rw [if_pos h0, h0]
    rfl
  · rw [if_neg h0]
    by_cases hl : isLocalId s = true
    · rw [if_pos hl]
      rfl
    · rw [if_neg hl]
      rw [canonicalId, if_neg hl] at h
      cases ha : atoi? s with
      | none => rfl
      | some n =>
        rw [ha] at h
        exact of_decide_eq_true h

/-! ### Front-matter line codec lemmas -/

/-- `String.mk` inverts `String.toList`. -/
theorem mk_toList (s : String) : String.mk s.toList = s := rfl

/-- An item line is recognised. -/
theorem seqItemC_item (rest : List Char) :
    seqItemC (' ' :: ' ' :: '-' :: ' ' :: rest) = some rest := rfl

/-- A line not starting with a blank is no item line. -/
theorem seqItemC_none_head (l : List Char) (h : ∀ c, l.head? = some c → c ≠ ' ') :
    seqItemC l = none := by
  rcases l with _ | ⟨c1, _ | ⟨c2, _ | ⟨c3, _ | ⟨c4, rest⟩⟩⟩⟩
  · rfl
  · rfl
  · rfl
  · rfl
  · show (if c1 = ' ' ∧ c2 = ' ' ∧ c3 = '-' ∧ c4 = ' ' then some rest else none) = none
    rw [if_neg]
    intro hc
    exact h c1 rfl hc.1

/-- The escaped text never contains a raw newline: the escape pair `\n`
stands in for it. -/
theorem quoteChars_no_nl : ∀ (cs : List Char) (c : Char), c ∈ quoteChars cs → c ≠ '\n' := by
  intro cs
  induction cs with
  | nil =>
    intro c hc
    simp [quoteChars] at hc
  | cons a t ih =>
    intro c hc
    rw [quoteChars] at hc
    by_cases hn : a = '\n'
    · rw [if_pos hn] at hc
      rcases List.mem_cons.mp hc with h1 | h1
      · subst h1; decide
      · rcases List.mem_cons.mp h1 with h2 | h2
        · subst h2; decide
        · exact ih c h2
    · rw [if_neg hn] at hc
      by_cases ha : a = '"' ∨ a = '\\'
      · rw [if_pos ha] at hc
        rcases List.mem_cons.mp hc with h1 | h1
        · subst h1; decide
        · rcases List.mem_cons.mp h1 with h2 | h2
          · subst h2
            rcases ha with h | h <;> (subst h; decide)
          · exact ih c h2
      · rw [if_neg ha] at hc
        rcases List.mem_cons.mp hc with h1 | h1
        · subst h1
          exact hn
        · exact ih c h1

/-- Scalar text of a non-sequence value contains no newline. -/
theorem scalarChars_no_nl (v : YVal) (hv : scalarWF v) : ∀ c ∈ scalarChars v, c ≠ '\n' := by
  cases v with
  | ynull =>
    intro c hc
    simp only [scalarChars, List.mem_cons, List.not_mem_nil, or_false] at hc
    rcases hc with h | h | h | h <;> (subst h; decide)
  | yint n =>
    intro c hc
    rw [show scalarChars (.yint n) = intRender n from rfl, intRender] at hc
    by_cases hneg : n < 0
    · rw [if_pos hneg] at hc
      rcases List.mem_cons.mp hc with h | h
      · subst h; decide
      · obtain ⟨d, hd, he⟩ := natRender_mem _ c h
        rw [he]
        exact (digitChar_props d hd).2.2.2.2.2.1
    · rw [if_neg hneg] at hc
      obtain ⟨d, hd, he⟩ := natRender_mem _ c hc
      rw [he]
      exact (digitChar_props d hd).2.2.2.2.2.1
  | ystr s =>
    intro c hc
    rcases List.mem_cons.mp hc with h | h
    · subst h; decide
    · rcases List.mem_append.mp h with h2 | h2
      · exact quoteChars_no_nl _ c h2
      · simp only [List.mem_singleton] at h2
        subst h2; decide
  | ytime t =>
    intro c hc
    rcases List.mem_cons.mp hc with h | h
    · subst h; decide
    · obtain ⟨d, hd, he⟩ := natRender_mem _ c h
      rw [he]
      exact (digitChar_props d hd).2.2.2.2.2.1
  | yseq xs => exact absurd hv (by simp [scalarWF])

/-- Unfolding the front-matter lines at one entry. -/
theorem fmLinesC_cons (e : String × YVal) (es : List (String × YVal)) :
    fmLinesC (e :: es) = renderEntryC e ++ fmLinesC es := by
  show (List.map renderEntryC (e :: es)).flatten = _
  rw [List.map_cons, List.flatten_cons]
  rfl

/-- Every front-matter line is a key line or an item line of a well-formed
entry. -/
theorem fmLinesC_mem : ∀ (es : List (String × YVal)), (∀ e ∈ es, entryWF e) →
    ∀ l ∈ fmLinesC es,
      (∃ k t, k ≠ ([] : List Char) ∧ (∀ c ∈ k, c ≠ ':' ∧ c ≠ '\n') ∧ l = k ++ ':' :: t ∧
        (t = [] ∨ ∃ v, scalarWF v ∧ t = ' ' :: scalarChars v)) ∨
      (∃ x, scalarWF x ∧ l = ' ' :: ' ' :: '-' :: ' ' :: scalarChars x) := by
  intro es
  induction es with
  | nil =>
    intro _ l hl
    simp [fmLinesC] at hl
  | cons e es2 ih =>
    intro h l hl
    rw [fmLinesC_cons] at hl
    obtain ⟨k, v⟩ := e
    obtain ⟨hk1, hk2, hk3, hv⟩ := h (k, v) (by simp)
    rcases List.mem_append.mp hl with h1 | h1
    · have scalar_case : ∀ v2 : YVal, scalarWF v2 →
          l ∈ [k.toList ++ ':' :: ' ' :: scalarChars v2] →
          (∃ k2 t, k2 ≠ ([] : List Char) ∧ (∀ c ∈ k2, c ≠ ':' ∧ c ≠ '\n') ∧
            l = k2 ++ ':' :: t ∧
            (t = [] ∨ ∃ v3, scalarWF v3 ∧ t = ' ' :: scalarChars v3)) ∨
          (∃ x, scalarWF x ∧ l = ' ' :: ' ' :: '-' :: ' ' :: scalarChars x) := by
        intro v2 hv2 hmem
        left
        exact ⟨k.toList, ' ' :: scalarChars v2, hk1, hk3, List.mem_singleton.mp hmem,
          Or.inr ⟨v2, hv2, rfl⟩⟩
      cases v with
      | yseq xs =>
        have h1b : l ∈ (k.toList ++ [':']) ::
            xs.map (fun x => ' ' :: ' ' :: '-' :: ' ' :: scalarChars x) := h1
        rcases List.mem_cons.mp h1b with he | ht
        · left
          exact ⟨k.toList, [], hk1, hk3, he, Or.inl rfl⟩
        · obtain ⟨x, hx, he⟩ := List.mem_map.mp ht
          right
          exact ⟨x, hv x hx, he.symm⟩
      | ynull => exact scalar_case .ynull hv h1
      | yint n => exact scalar_case (.yint n) hv h1
      | ystr s => exact scalar_case (.ystr s) hv h1
      | ytime t => exact scalar_case (.ytime t) hv h1
    · exact ih (fun e2 he2 => h e2 (by simp [he2])) l h1

/-- Front-matter lines are newline-free. -/
theorem fmLinesC_no_nl (es : List (String × YVal)) (h : ∀ e ∈ es, entryWF e) :
    ∀ l ∈ fmLinesC es, ∀ c ∈ l, c ≠ '\n' := by
  intro l hl c hc
  rcases fmLinesC_mem es h l hl with ⟨k, t, hk1, hk2, he, ht⟩ | ⟨x, hx, he⟩
  · subst he
    rcases List.mem_append.mp hc with h1 | h1
    · exact (hk2 c h1).2
    · rcases List.mem_cons.mp h1 with h2 | h2
      · subst h2; decide
      · rcases ht with rfl | ⟨v, hv, rfl⟩
        · simp at h2
        · rcases List.mem_cons.mp h2 with h3 | h3
          · subst h3; decide
          · exact scalarChars_no_nl v hv c h3
  · subst he
    simp only [List.mem_cons] at hc
    rcases hc with rfl | rfl | rfl | rfl | hc2
    · decide
    · decide
    · decide
    · decide
    · exact scalarChars_no_nl x hx c hc2

/-- No front-matter line is the closing delimiter. -/
theorem fmLinesC_ne_delim (es : List (String × YVal)) (h : ∀ e ∈ es, entryWF e) :
    ∀ l ∈ fmLinesC es, l ≠ ['-', '-', '-'] := by
  intro l hl
  rcases fmLinesC_mem es h l hl with ⟨k, t, hk1, hk2, he, -⟩ | ⟨x, hx, he⟩
  · subst he
    intro hcon
    have hcolon : (':' : Char) ∈ k ++ ':' :: t := by simp
    rw [hcon] at hcolon
    exact absurd hcolon (by decide)
  · subst he
    intro hcon
    injection hcon with h1 _
    exact absurd h1 (by decide)

/-- The lines of a well-formed front matter never start with an item line. -/
theorem fmLinesC_head_no_item (es : List (String × YVal)) (h : ∀ e ∈ es, entryWF e) :
    ∀ l, (fmLinesC es).head? = some l → seqItemC l = none := by
  intro l hl
  cases es with
  | nil => simp [fmLinesC] at hl
  | cons e es2 =>
    rw [fmLinesC_cons] at hl
    obtain ⟨k, v⟩ := e
    obtain ⟨hk1, hk2, hk3, hv⟩ := h (k, v) (by simp)
    have hhead : ∃ t, ((renderEntryC (k, v)) ++ fmLinesC es2).head? =
        some (k.toList ++ ':' :: t) := by
      cases v with
      | yseq xs => exact ⟨[], rfl⟩
      | ynull => exact ⟨' ' :: scalarChars .ynull, rfl⟩
      | yint n => exact ⟨' ' :: scalarChars (.yint n), rfl⟩
      | ystr s => exact ⟨' ' :: scalarChars (.ystr s), rfl⟩
      | ytime t2 => exact ⟨' ' :: scalarChars (.ytime t2), rfl⟩
    obtain ⟨t, ht⟩ := hhead
    rw [ht] at hl
    simp only [Option.some.injEq] at hl
    subst hl
    apply seqItemC_none_head
    intro c hc
    cases hk : k.toList with
    | nil => exact absurd hk hk1
    | cons a rest =>
      rw [hk] at hc
      simp only [List.cons_append, List.head?_cons, Option.some.injEq] at hc
      subst hc
      intro hsp
      apply hk2
      rw [hk, hsp]
      rfl

/-- Item lines decode back to their values. -/
theorem mapM_item_lines (xs : List YVal) (h : ∀ x ∈ xs, scalarWF x) :
    (xs.map (fun x => ' ' :: ' ' :: '-' :: ' ' :: scalarChars x)).mapM
      (fun l2 => (seqItemC l2).bind parseScalarC) = some xs := by
  induction xs with
  | nil => rfl
  | cons x xs2 ih =>
    have hx : (seqItemC (' ' :: ' ' :: '-' :: ' ' :: scalarChars x)).bind parseScalarC =
        some x := by
      rw [seqItemC_item]
      show parseScalarC (scalarChars x) = some x
      exact parseScalar_scalarChars x (h x (by simp))
    simp only [List.map_cons, List.mapM_cons, hx, ih (fun y hy => h y (by simp [hy]))]
    rfl

/-- One scalar entry line parses off the front of the line list. -/
theorem parse_scalar_line (k : String) (v : YVal) (rest : List (List Char)) (f : Nat)
    (hk3 : ∀ c ∈ k.toList, c ≠ ':' ∧ c ≠ '\n') (hv : scalarWF v) :
    parseEntriesF (f + 1) ((k.toList ++ ':' :: ' ' :: scalarChars v) :: rest) =
      (parseEntriesF f rest).map (fun es => (k, v) :: es) := by
  have hdrop : (k.toList ++ ':' :: ' ' :: scalarChars v).dropWhile (fun c => c ≠ ':') =
      ':' :: ' ' :: scalarChars v := by
    rw [dropWhile_app_all _ k.toList _ (fun c hc => by simp [(hk3 c hc).1])]
    rw [List.dropWhile_cons, if_neg (by simp)]
  have htake : (k.toList ++ ':' :: ' ' :: scalarChars v).takeWhile (fun c => c ≠ ':') =
      k.toList := by
    rw [takeWhile_app_all _ k.toList _ (fun c hc => by simp [(hk3 c hc).1])]
    rw [List.takeWhile_cons, if_neg (by simp)]
    simp
  simp only [parseEntriesF, hdrop, htake, parseScalar_scalarChars v hv, mk_toList]

/-- One sequence entry (header plus item lines) parses off the front of the
line list. -/
theorem parse_seq_line (k : String) (xs : List YVal) (rest2 : List (List Char)) (f : Nat)
    (hk3 : ∀ c ∈ k.toList, c ≠ ':' ∧ c ≠ '\n') (hv : ∀ x ∈ xs, scalarWF x)
    (hrest : ∀ l, rest2.head? = some l → seqItemC l = none) :
    parseEntriesF (f + 1) ((k.toList ++ [':']) ::
        (xs.map (fun x => ' ' :: ' ' :: '-' :: ' ' :: scalarChars x) ++ rest2)) =
      (parseEntriesF f rest2).map (fun es => (k, .yseq xs) :: es) := by
  have hdrop : (k.toList ++ [':']).dropWhile (fun c => c ≠ ':') = [':'] := by
    rw [dropWhile_app_all _ k.toList _ (fun c hc => by simp [(hk3 c hc).1])]
    rw [List.dropWhile_cons, if_neg (by simp)]
  have htake : (k.toList ++ [':']).takeWhile (fun c => c ≠ ':') = k.toList := by
    rw [takeWhile_app_all _ k.toList _ (fun c hc => by simp [(hk3 c hc).1])]
    rw [List.takeWhile_cons, if_neg (by simp)]
    simp
  have hall : ∀ l ∈ xs.map (fun x => ' ' :: ' ' :: '-' :: ' ' :: scalarChars x),
      (seqItemC l).isSome = true := by
    intro l hlm
    obtain ⟨x, -, he⟩ := List.mem_map.mp hlm
    rw [← he, seqItemC_item]
    rfl
  have hheadf : ∀ l, rest2.head? = some l → (seqItemC l).isSome = false := by
    intro l hl
    rw [hrest l hl]
    rfl
  have htw : (xs.map (fun x => ' ' :: ' ' :: '-' :: ' ' :: scalarChars x) ++ rest2).takeWhile
      (fun l2 => (seqItemC l2).isSome) =
      xs.map (fun x => ' ' :: ' ' :: '-' :: ' ' :: scalarChars x) := by
    rw [takeWhile_app_all2 _ _ _ hall]
    rw [takeWhile_eq_nil_head _ _ hheadf, List.append_nil]
  have hdw : (xs.map (fun x => ' ' :: ' ' :: '-' :: ' ' :: scalarChars x) ++ rest2).dropWhile
      (fun l2 => (seqItemC l2).isSome) = rest2 := by
    rw [dropWhile_app_all2 _ _ _ hall]
    exact dropWhile_eq_self_head _ _ hheadf
  simp only [parseEntriesF, hdrop, htake, htw, hdw, mapM_item_lines xs hv, mk_toList]

/-- A well-formed front matter parses back into its entries. -/
theorem parseEntriesF_fmLinesC : ∀ (es : List (String × YVal)) (fuel : Nat),
    (∀ e ∈ es, entryWF e) → (fmLinesC es).length ≤ fuel →
    parseEntriesF fuel (fmLinesC es) = some es := by
  intro es
  induction es with
  | nil =>
    intro fuel _ _
    show parseEntriesF fuel [] = some []
    cases fuel <;> rfl
  | cons e es2 ih =>
    intro fuel h hlen
    obtain ⟨k, v⟩ := e
    obtain ⟨hk1, hk2, hk3, hv⟩ := h (k, v) (by simp)
    have h2 : ∀ e2 ∈ es2, entryWF e2 := fun e2 he2 => h e2 (by simp [he2])
    rw [fmLinesC_cons] at hlen ⊢
    cases v with
    | yseq xs =>
      have hrender : renderEntryC (k, YVal.yseq xs) ++ fmLinesC es2 =
          (k.toList ++ [':']) ::
            (xs.map (fun x => ' ' :: ' ' :: '-' :: ' ' :: scalarChars x) ++ fmLinesC es2) :=
        rfl
      rw [hrender] at hlen ⊢
      cases fuel with
      | zero => simp at hlen
      | succ f =>
        rw [parse_seq_line k xs _ f hk3 hv (fmLinesC_head_no_item es2 h2)]
        rw [ih f h2 (by simp [List.length_append] at hlen; omega)]
        rfl
    | ynull =>
      have hrender : renderEntryC (k, YVal.ynull) ++ fmLinesC es2 =
          (k.toList ++ ':' :: ' ' :: scalarChars .ynull) :: fmLinesC es2 := rfl
      rw [hrender] at hlen ⊢
      cases fuel with
      | zero => simp at hlen
      | succ f =>
        rw [parse_scalar_line k _ _ f hk3 hv]
        rw [ih f h2 (by simp at hlen; omega)]
        rfl
    | yint n =>
      have hrender : renderEntryC (k, YVal.yint n) ++ fmLinesC es2 =
          (k.toList ++ ':' :: ' ' :: scalarChars (.yint n)) :: fmLinesC es2 := rfl
      rw [hrender] at hlen ⊢
      cases fuel with
      | zero => simp at hlen
      | succ f =>
        rw [parse_scalar_line k _ _ f hk3 hv]
        rw [ih f h2 (by simp at hlen; omega)]
        rfl
    | ystr s =>
      have hrender : renderEntryC (k, YVal.ystr s) ++ fmLinesC es2 =
          (k.toList ++ ':' :: ' ' :: scalarChars (.ystr s)) :: fmLinesC es2 := rfl
      rw [hrender] at hlen ⊢
      cases fuel with
      | zero => simp at hlen
      | succ f =>
        rw [parse_scalar_line k _ _ f hk3 hv]
        rw [ih f h2 (by simp at hlen; omega)]
        rfl
    | ytime t =>
      have hrender : renderEntryC (k, YVal.ytime t) ++ fmLinesC es2 =
          (k.toList ++ ':' :: ' ' :: scalarChars (.ytime t)) :: fmLinesC es2 := rfl
      rw [hrender] at hlen ⊢
      cases fuel with
      | zero => simp at hlen
      | succ f =>
        rw [parse_scalar_line k _ _ f hk3 hv]
        rw [ih f h2 (by simp at hlen; omega)]
        rfl

/-- The fuel bound of the line parser suffices for a well-formed front
matter. -/
theorem parseEntriesC_fmLinesC (es : List (String × YVal)) (h : ∀ e ∈ es, entryWF e) :
    parseEntriesC (fmLinesC es) = some es :=
  parseEntriesF_fmLinesC es _ h le_rfl

/-! ### Round-trip assembly -/

/-- A BOM-free text passes the BOM strip unchanged. -/
theorem dropBOM_dash (t : List Char) : dropBOM ('-' :: t) = '-' :: t := rfl

/-- The rendered text starts with the opening delimiter. -/
theorem delim_isPrefix (t : List Char) :
    (['-', '-', '-', '\n'].isPrefixOf ('-' :: '-' :: '-' :: '\n' :: t)) = true := by
  show List.isPrefixOf _ _ = true
  simp [List.isPrefixOf]

/-- Parsing the rendered text of an issue whose front matter is well formed
recovers the issue up to the yaml identifier round trip, set-field
canonicalisation and one extra body normalization pass. -/
theorem parseText_renderText (i : Issue) (hwf : ∀ e ∈ encodeFM i, entryWF e) :
    parseText (renderText i) = some
      { number := unmarshalId (marshalId i.number)
        title := i.title
        labels := sortedStrings i.labels
        assignees := sortedStrings i.assignees
        milestone := i.milestone
        state := i.state
        stateReason := i.stateReason
        parent := match i.parent with | none => none | some r => decodeOptId (marshalId r)
        blockedBy := (sortedStrings i.blockedBy).map (fun r => unmarshalId (marshalId r))
        blocks := (sortedStrings i.blocks).map (fun r => unmarshalId (marshalId r))
        syncedAt := i.syncedAt
        body := normalizeBody (normalizeBody i.body) } := by
  have hnl := fmLinesC_no_nl (encodeFM i) hwf
  have hnd := fmLinesC_ne_delim (encodeFM i) hwf
  have hcs : renderText i = '-' :: '-' :: '-' :: '\n' ::
      (((fmLinesC (encodeFM i)).map (fun l => l ++ ['\n'])).flatten ++
        ('-' :: '-' :: '-' :: '\n' :: '\n' :: (normalizeBody i.body).toList)) := by
    rw [renderText]
    simp only [List.append_assoc, List.cons_append, List.nil_append]
  have hsplit3 : ∀ t : List Char, splitNL ('-' :: '-' :: '-' :: '\n' :: t) =
      ['-', '-', '-'] :: splitNL t := by
    intro t
    have h := splitNL_line ['-', '-', '-'] t (by decide)
    simpa using h
  have hnlsplit : splitNL ('\n' :: (normalizeBody i.body).toList) =
      [] :: splitNL (normalizeBody i.body).toList := by
    rw [splitNL, if_pos rfl]
  have hsl : splitNL (((fmLinesC (encodeFM i)).map (fun l => l ++ ['\n'])).flatten ++
      ('-' :: '-' :: '-' :: '\n' :: '\n' :: (normalizeBody i.body).toList)) =
      fmLinesC (encodeFM i) ++
        (['-', '-', '-'] :: ([] :: splitNL (normalizeBody i.body).toList)) := by
    rw [splitNL_lines _ _ hnl, hsplit3, hnlsplit]
  have hfd : findDelim (fmLinesC (encodeFM i) ++
      (['-', '-', '-'] :: ([] :: splitNL (normalizeBody i.body).toList))) =
      some (fmLinesC (encodeFM i), [] :: splitNL (normalizeBody i.body).toList) :=
    findDelim_append _ _ hnd
  have hpe := parseEntriesC_fmLinesC (encodeFM i) hwf
  have hjoin : joinNL ([] :: splitNL (normalizeBody i.body).toList) =
      '\n' :: (normalizeBody i.body).toList := by
    cases hs : splitNL (normalizeBody i.body).toList with
    | nil => exact absurd hs (splitNL_ne_nil _)
    | cons l ls =>
      show [] ++ '\n' :: joinNL (l :: ls) = _
      rw [← hs, joinNL_splitNL]
      rfl
  simp only [parseText, hcs, dropBOM_dash, delim_isPrefix, if_true, hsplit3, List.tail_cons,
    hsl, hfd, Option.some_bind, hpe, Option.map_some', hjoin, decodeFM_encodeFM i, mk_toList]

/-- Entry well-formedness, introduction form. -/
theorem entryWF_mk (k : String) (v : YVal)
    (h1 : k.toList ≠ []) (h2 : k.toList.head? ≠ some ' ')
    (h3 : ∀ c ∈ k.toList, c ≠ ':' ∧ c ≠ '\n')
    (h4 : match v with | YVal.yseq xs => ∀ x ∈ xs, scalarWF x | v => scalarWF v) :
    entryWF (k, v) := ⟨h1, h2, h3, h4⟩

/-- Every string - multiline ones included - is a scalar wire value. -/
theorem scalarWF_ystr (s : String) : scalarWF (.ystr s) := True.intro

/-- A line-safe scalar for either arm of the entry well-formedness match. -/
theorem entry_match_of_scalarWF (v : YVal) :
    scalarWF v → (match v with | YVal.yseq xs => ∀ x ∈ xs, scalarWF x | v => scalarWF v) := by
  cases v with
  | yseq xs =>
    intro hv
    exact absurd hv (by simp [scalarWF])
  | ynull => exact fun hv => hv
  | yint n => exact fun hv => hv
  | ystr s => exact fun hv => hv
  | ytime t => exact fun hv => hv

/-- Every identifier marshals to a scalar wire value. -/
theorem scalarWF_marshalId (s : String) : scalarWF (marshalId s) := by
  rw [marshalId]
  by_cases h0 : s = ""
  · rw [if_pos h0]
    trivial
  · rw [if_neg h0]
    by_cases hl : isLocalId s = true
    · rw [if_pos hl]
      trivial
    · rw [if_neg hl]
      cases ha : atoi? s with
      | none => trivial
      | some n => trivial

/-- Membership in an optional one-entry segment. -/
theorem mem_opt_entry {α : Type} (c : Prop) [Decidable c] (x e : α)
    (h : e ∈ (if c then ([] : List α) else [x])) : e = x := by
  by_cases hc : c
  · rw [if_pos hc] at h
    simp at h
  · rw [if_neg hc] at h
    simpa using h

/-- Membership in an option-driven one-entry segment. -/
theorem mem_match_opt {α β : Type} (o : Option β) (f : β → α) (e : α)
    (h : e ∈ (match o with | none => ([] : List α) | some r => [f r])) :
    ∃ r, o = some r ∧ e = f r := by
  cases o with
  | none => simp at h
  | some r => exact ⟨r, rfl, by simpa using h⟩

/-- A map that fixes every member is the identity. -/
theorem map_id_of_mem {α : Type} (f : α → α) : ∀ (l : List α), (∀ x ∈ l, f x = x) →
    l.map f = l := by
  intro l
  induction l with
  | nil => intro _; rfl
  | cons a t ih =>
    intro h
    rw [List.map_cons, h a (by simp), ih (fun x hx => h x (by simp [hx]))]

/-- A nonempty canonical identifier survives the optional-reference decode. -/
theorem decodeOptId_marshalId (r : String) (h0 : r ≠ "") (hc : canonicalId r = true) :
    decodeOptId (marshalId r) = some r := by
  rw [marshalId, if_neg h0]
  by_cases hl : isLocalId r = true
  · rw [if_pos hl]
    rfl
  · rw [if_neg hl]
    rw [canonicalId, if_neg hl] at hc
    cases ha : atoi? r with
    | none => rfl
    | some n =>
      rw [ha] at hc
      show some (String.mk (intRender n)) = some r
      rw [of_decide_eq_true hc]

/-- Every issue encodes to a well-formed front matter: the keys are fixed
and every value is a scalar or a sequence of scalars (multiline strings are
carried by the escaped quoted form). -/
theorem encodeFM_entryWF (i : Issue) : ∀ e ∈ encodeFM i, entryWF e := by
  intro e he
  rw [encodeFM] at he
  simp only [List.mem_append] at he
  rcases he with ((((((((he | he) | he) | he) | he) | he) | he) | he) | he) | he
  · simp only [List.mem_cons, List.not_mem_nil, or_false] at he
    rcases he with rfl | rfl
    · exact entryWF_mk _ _ (by decide) (by decide) (by decide)
        (entry_match_of_scalarWF _ (scalarWF_marshalId _))
    · exact entryWF_mk _ _ (by decide) (by decide) (by decide)
        (entry_match_of_scalarWF _ (scalarWF_ystr _))
  · rw [mem_opt_entry _ _ _ he]
    refine entryWF_mk _ _ (by decide) (by decide) (by decide) ?_
    intro x hx
    obtain ⟨l, hl, rfl⟩ := List.mem_map.mp hx
    exact scalarWF_ystr l
  · rw [mem_opt_entry _ _ _ he]
    refine entryWF_mk _ _ (by decide) (by decide) (by decide) ?_
    intro x hx
    obtain ⟨l, hl, rfl⟩ := List.mem_map.mp hx
    exact scalarWF_ystr l
  · rw [mem_opt_entry _ _ _ he]
    exact entryWF_mk _ _ (by decide) (by decide) (by decide)
      (entry_match_of_scalarWF _ (scalarWF_ystr _))
  · rw [mem_opt_entry _ _ _ he]
    exact entryWF_mk _ _ (by decide) (by decide) (by decide)
      (entry_match_of_scalarWF _ (scalarWF_ystr _))
  · simp only [List.mem_singleton] at he
    subst he
    refine entryWF_mk _ _ (by decide) (by decide) (by decide) ?_
    cases hsro : i.stateReason with
    | none => trivial
    | some s => trivial
  · rcases hpar2 : i.parent with _ | r
    · rw [hpar2] at he
      simp at he
    · rw [hpar2] at he
      simp only [List.mem_singleton] at he
      subst he
      exact entryWF_mk _ _ (by decide) (by decide) (by decide)
        (entry_match_of_scalarWF _ (scalarWF_marshalId r))
  · rw [mem_opt_entry _ _ _ he]
    refine entryWF_mk _ _ (by decide) (by decide) (by decide) ?_
    intro x hx
    obtain ⟨r, hrm, rfl⟩ := List.mem_map.mp hx
    exact scalarWF_marshalId r
  · rw [mem_opt_entry _ _ _ he]
    refine entryWF_mk _ _ (by decide) (by decide) (by decide) ?_
    intro x hx
    obtain ⟨r, hrm, rfl⟩ := List.mem_map.mp hx
    exact scalarWF_marshalId r
  · rcases hsy : i.syncedAt with _ | t
    · rw [hsy] at he
      simp at he
    · rw [hsy] at he
      simp only [List.mem_singleton] at he
      subst he
      exact entryWF_mk _ _ (by decide) (by decide) (by decide) trivial

/-- C10: rendering a render-safe issue to the structured text form and
parsing it back succeeds and yields a record equal to the original under
`EqualIgnoringSyncedAt`: with canonical identifier fields and a body
normalization fixed point, no information is lost beyond set-field
canonicalisation and the trailing-newline policy - multiline string fields
round-trip through the escaped quoted scalar form with no side condition.
(The unconditional claim is refuted by `claim_C10_counterexample`: a numeric
identifier with a leading zero is canonicalised by the yaml round trip and
the parsed record no longer equals the original.) -/
theorem claim_C10_round_trip (i : Issue) (h : renderSafe i = true) :
    ∃ j, parseText (renderText i) = some j ∧ equalIgnoringSyncedAt i j = true := by
  have hwf := encodeFM_entryWF i
  have hh := h
  rw [renderSafe] at hh
  simp only [Bool.and_eq_true] at hh
  obtain ⟨⟨⟨⟨hcn, hcp⟩, hbb⟩, hbl⟩, hbody⟩ := hh
  refine ⟨_, parseText_renderText i hwf, ?_⟩
  have hb : normalizeBody (normalizeBody i.body) = normalizeBody i.body :=
    of_decide_eq_true hbody
  have hmapbb : (sortedStrings i.blockedBy).map (fun r => unmarshalId (marshalId r)) =
      sortedStrings i.blockedBy := by
    apply map_id_of_mem
    intro r hr
    exact unmarshalId_marshalId r (List.all_eq_true.mp hbb r hr)
  have hmapbl : (sortedStrings i.blocks).map (fun r => unmarshalId (marshalId r)) =
      sortedStrings i.blocks := by
    apply map_id_of_mem
    intro r hr
    exact unmarshalId_marshalId r (List.all_eq_true.mp hbl r hr)
  have hpar : optStr (match i.parent with
      | none => none
      | some r => decodeOptId (marshalId r)) = optStr i.parent := by
    cases hp : i.parent with
    | none => rfl
    | some r =>
      by_cases hr0 : r = ""
      · subst hr0
        rfl
      · have hcr : canonicalId r = true := by
          rw [hp] at hcp
          exact hcp
        show optStr (decodeOptId (marshalId r)) = optStr (some r)
        rw [decodeOptId_marshalId r hr0 hcr]
  rw [equalIgnoringSyncedAt, eqCore]
  simp only [normalizeIssue, Bool.and_eq_true, decide_eq_true_eq,
    unmarshalId_marshalId _ hcn, sortedStrings_idem, hmapbb, hmapbl, hpar, hb]
  simp

/-- C10 witness: a concrete render-safe issue with every kind of field - a
multiline title among them - round-trips up to `EqualIgnoringSyncedAt`. -/
theorem claim_C10_witness :
    renderSafe
      { number := "42", title := "Title\nsecond line", labels := ["bug", "ui"],
        assignees := ["alice"], milestone := "v1", state := "open",
        stateReason := some "done", parent := some "T1a2b3c4", blockedBy := ["7"],
        blocks := [], syncedAt := some 5, body := "hello\nworld" } = true ∧
    ∃ j, parseText (renderText
      { number := "42", title := "Title\nsecond line", labels := ["bug", "ui"],
        assignees := ["alice"], milestone := "v1", state := "open",
        stateReason := some "done", parent := some "T1a2b3c4", blockedBy := ["7"],
        blocks := [], syncedAt := some 5, body := "hello\nworld" }) = some j ∧
      equalIgnoringSyncedAt
        { number := "42", title := "Title\nsecond line", labels := ["bug", "ui"],
          assignees := ["alice"], milestone := "v1", state := "open",
          stateReason := some "done", parent := some "T1a2b3c4", blockedBy := ["7"],
          blocks := [], syncedAt := some 5, body := "hello\nworld" } j = true :=
  ⟨by decide, claim_C10_round_trip _ (by decide)⟩

/-- C10 counterexample: the round trip is not the identity for every issue
`Render` accepts.  The issue numbered `042` renders fine, but the yaml
integer round trip canonicalises the identifier to `42`, so the parsed
record is not equal to the original under `EqualIgnoringSyncedAt`. -/
theorem claim_C10_counterexample :
    parseText (renderText { number := "042", title := "x", state := "open", body := "b" }) =
      some { number := "42", title := "x", state := "open", body := "b\n" } ∧
    equalIgnoringSyncedAt { number := "042", title := "x", state := "open", body := "b" }
      { number := "42", title := "x", state := "open", body := "b\n" } = false := by
  decide

end IssueSync
